import Mathlib

/-!
Formal model of the retrieval and ranking pipeline of the `codebaseqa`
repository, shallowly embedded in Lean 4.  Strings are modelled as `List Char`,
floats as `ℚ`, and wall-clock time as `ℕ`.  Each definition is translated from
the Python source:
  - `apps/api/src/core/rag/pipeline.py` (intent classifier, query expander,
    grounding, reranker, context assembler, generation orchestrator)
  - `apps/api/src/core/vectorstore/chroma_store.py` (hybrid scorer)
  - `apps/api/src/core/cache/chat_cache.py` (two-tier TTL cache)
  - `apps/api/src/api/routes/chat.py` (admission control around streaming)
-/

namespace CodebaseQA

/-! ## String utilities mirroring the Python primitives used by the source -/

/-- Python whitespace (`str.strip` / regex `\s`): space, tab, LF, CR, VT, FF. -/
def pySpace (c : Char) : Bool :=
  c = ' ' || c = '\t' || c = '\n' || c = '\r' || c = '\x0b' || c = '\x0c'

/-- Python `str.lower()` (ASCII range, which is all the source compares). -/
def pyLower (s : List Char) : List Char := s.map Char.toLower

/-- Python `str.upper()` (ASCII range). -/
def pyUpper (s : List Char) : List Char := s.map Char.toUpper

/-- Python `str.strip()`: drop leading and trailing whitespace. -/
def pyStrip (s : List Char) : List Char :=
  ((s.dropWhile pySpace).reverse.dropWhile pySpace).reverse

/-- Python substring test `needle in hay`. -/
def substr (needle hay : List Char) : Bool :=
  match hay with
  | [] => needle.isEmpty
  | _ :: t => needle.isPrefixOf hay || substr needle t

/-- Python `hay.endswith(suffix)`. -/
def endsWith (suffix hay : List Char) : Bool := suffix.reverse.isPrefixOf hay.reverse

/-- Python `hay.startswith(pre)`. -/
def startsWith (pre hay : List Char) : Bool := pre.isPrefixOf hay

/-- Word characters of the regex `\b` boundary: `[A-Za-z0-9_]`. -/
def wordChar (c : Char) : Bool := c.isAlphanum || c = '_'

/-- Does `phrase` occur at the head of `hay` with a word boundary after it? -/
def matchesWordAt (phrase hay : List Char) : Bool :=
  phrase.isPrefixOf hay &&
    (match hay.drop phrase.length with
     | [] => true
     | c :: _ => !wordChar c)

/-- Scan for `re.search(r"\b" + phrase + r"\b", hay)`: an occurrence of
`phrase` preceded and followed by a non-word character (or the ends). -/
def containsWordAux (phrase : List Char) : List Char → Bool → Bool
  | [], _ => false
  | c :: t, prevIsWord =>
      (!prevIsWord && matchesWordAt phrase (c :: t)) || containsWordAux phrase t (wordChar c)

def containsWord (phrase hay : List Char) : Bool :=
  containsWordAux phrase hay false

/-- Disjunction of word-bounded phrases: `re.search(r"\b(p1|p2|...)\b", hay)`. -/
def containsAnyWord (phrases : List (List Char)) (hay : List Char) : Bool :=
  phrases.any (fun p => containsWord p hay)

mutual
/-- Python `re.sub(r"\s+", " ", s)`: collapse every whitespace run to one
space. -/
def collapseWs : List Char → List Char
  | [] => []
  | c :: t => if pySpace c then ' ' :: collapseWsSkip t else c :: collapseWs t
def collapseWsSkip : List Char → List Char
  | [] => []
  | c :: t => if pySpace c then collapseWsSkip t else c :: collapseWs t
end

/-- Maximal runs of characters satisfying `p` (the matches of a regex class
`[...]+` under `re.findall`). -/
def charRunsAux (p : Char → Bool) : List Char → List Char → List (List Char)
  | [], acc => if acc.isEmpty then [] else [acc.reverse]
  | c :: cs, acc =>
      if p c then charRunsAux p cs (c :: acc)
      else if acc.isEmpty then charRunsAux p cs []
      else acc.reverse :: charRunsAux p cs []

def charRuns (p : Char → Bool) (s : List Char) : List (List Char) :=
  charRunsAux p s []

/-! ## Intent classifier (`RAGPipeline.classify_intent`, pipeline.py 158-277) -/

inductive ChatIntent where
  | overview | implementation | tech_stack | location | troubleshooting
deriving DecidableEq, Repr

/-- `ChatIntent(mode)`: parse the string value of the enum, `None` on
`ValueError`. -/
def parseChatIntent (mode : List Char) : Option ChatIntent :=
  if mode = "overview".data then some .overview
  else if mode = "implementation".data then some .implementation
  else if mode = "tech_stack".data then some .tech_stack
  else if mode = "location".data then some .location
  else if mode = "troubleshooting".data then some .troubleshooting
  else none

def overviewPatterns : List (List Char) :=
  ["main features".data, "what does this application".data,
   "what is this application".data, "overview".data, "about".data,
   "purpose".data, "capabilities".data]

def implementationPatterns : List (List Char) :=
  ["how does".data, "how is".data, "implementation".data, "flow".data,
   "code path".data, "internals".data]

def techStackPatterns : List (List Char) :=
  ["tech stack".data, "technologies".data, "libraries".data,
   "dependencies".data, "frameworks".data, "stack".data]

def locationPatterns : List (List Char) :=
  ["where is".data, "which file".data, "location".data, "defined".data,
   "find".data, "located".data]

def troubleshootingPatterns : List (List Char) :=
  ["error".data, "bug".data, "failing".data, "not working".data,
   "exception".data, "fix".data, "issue".data]

/-- Heuristic score of one intent on a query (`_score_intents`): 3 points per
matched curated phrase plus the supplementary word-bounded regex bonuses. -/
def intentScore (query : List Char) (i : ChatIntent) : ℕ :=
  let ql := pyLower query
  match i with
  | .overview =>
      3 * overviewPatterns.countP (fun p => substr p ql) +
        (if containsAnyWord ["feature".data, "overview".data, "purpose".data] ql then 2 else 0)
  | .implementation =>
      3 * implementationPatterns.countP (fun p => substr p ql) +
        (if containsAnyWord
            ["api".data, "handler".data, "service".data, "class".data,
             "function".data, "method".data] ql then 1 else 0)
  | .tech_stack =>
      3 * techStackPatterns.countP (fun p => substr p ql) +
        (if containsAnyWord
            ["config".data, "package.json".data, "pyproject".data,
             "requirements".data] ql then 1 else 0)
  | .location => 3 * locationPatterns.countP (fun p => substr p ql)
  | .troubleshooting => 3 * troubleshootingPatterns.countP (fun p => substr p ql)

/-- Dictionary order of `scores = {intent: 0 for intent in ChatIntent}`. -/
def intentList : List ChatIntent :=
  [.overview, .implementation, .tech_stack, .location, .troubleshooting]

/-- `sorted(scores.items(), key=lambda item: item[1], reverse=True)`:
a stable descending sort of the per-intent scores. -/
def orderedIntentScores (query : List Char) : List (ChatIntent × ℕ) :=
  (intentList.map (fun i => (i, intentScore query i))).mergeSort
    (fun a b => decide (b.2 ≤ a.2))

/-- Heuristic branch of `classify_intent` (mode absent or `"auto"`). -/
def classifyAuto (query : List Char) : ChatIntent :=
  match orderedIntentScores query with
  | [] => .implementation
  | (best, bestScore) :: _ => if bestScore = 0 then .implementation else best

/-- `RAGPipeline.classify_intent(query, mode)`. An unknown non-`"auto"` mode
logs a warning and falls through to the heuristic path. -/
def classifyIntent (query mode : List Char) : ChatIntent :=
  if mode ≠ [] ∧ mode ≠ "auto".data then
    match parseChatIntent mode with
    | some i => i
    | none => classifyAuto query
  else classifyAuto query

/-- `RAGPipeline.classify_intent_async(query, mode)`: identical override
handling, then the heuristic path with an optional generative tie-break whose
collaborator is abstracted as `tiebreak`. -/
def classifyIntentAsync (query mode : List Char) (tiebreakEnabled : Bool)
    (tiebreak : List Char → List ChatIntent → Option ChatIntent) : ChatIntent :=
  if mode ≠ [] ∧ mode ≠ "auto".data then
    match parseChatIntent mode with
    | some i => i
    | none => classifyAutoTiebreak query tiebreakEnabled tiebreak
  else classifyAutoTiebreak query tiebreakEnabled tiebreak
where
  classifyAutoTiebreak (query : List Char) (tiebreakEnabled : Bool)
      (tiebreak : List Char → List ChatIntent → Option ChatIntent) : ChatIntent :=
    match orderedIntentScores query with
    | [] => .implementation
    | (best, bestScore) :: rest =>
        if bestScore = 0 then .implementation
        else if tiebreakEnabled ∧ rest.head?.map Prod.snd = some bestScore then
          let candidates :=
            (((best, bestScore) :: rest).take 3).filterMap
              (fun item => if item.2 = bestScore then some item.1 else none)
          match tiebreak query candidates with
          | some guessed => guessed
          | none => best
        else best

/-! ## Query expander (`RAGPipeline._expand_query`, pipeline.py 300-338) -/

/-- `RAGPipeline.QUERY_EXPANSIONS` in dictionary order. -/
def QUERY_EXPANSIONS : List (List Char × List (List Char)) :=
  [("how does".data, ["implementation".data, "flow".data, "logic".data, "function".data]),
   ("where is".data, ["file".data, "path".data, "location".data, "defined".data]),
   ("error".data, ["exception".data, "traceback".data, "retry".data, "fallback".data]),
   ("auth".data, ["authentication".data, "authorization".data, "login".data,
                  "session".data, "token".data]),
   ("database".data, ["schema".data, "model".data, "query".data, "migration".data]),
   ("feature".data, ["overview".data, "purpose".data, "capabilities".data, "use case".data]),
   ("stack".data, ["framework".data, "library".data, "dependency".data, "architecture".data])]

/-- Append `x` unless it is already present (`if expanded not in queries`). -/
def addIfNew (qs : List (List Char)) (x : List Char) : List (List Char) :=
  if x ∈ qs then qs else qs ++ [x]

/-- Order-preserving first-occurrence deduplication (the `deduped` loop). -/
def dedupAux : List (List Char) → List (List Char) → List (List Char)
  | [], _ => []
  | x :: xs, seen => if x ∈ seen then dedupAux xs seen else x :: dedupAux xs (x :: seen)

def dedup (l : List (List Char)) : List (List Char) := dedupAux l []

/-- `_is_explicit_entrypoint_question`: word-bounded search for the
entry-point phrases. -/
def isEntrypointQuestion (queryLower : List Char) : Bool :=
  containsAnyWord
    ["entry point".data, "startup".data, "bootstrap".data,
     "main file".data, "main entry".data] queryLower

/-- Intent-specific extensions appended by `_expand_query` (the
`if/elif` chain after the keyword table). -/
def intentExtras (query : List Char) (intent : ChatIntent) (queryLower : List Char) :
    List (List Char) :=
  if intent = .overview then
    [query ++ " README overview".data, query ++ " docs".data]
  else if intent = .tech_stack then
    [query ++ " package.json dependencies".data, query ++ " requirements pyproject".data]
  else if isEntrypointQuestion queryLower then
    ["index.ts OR index.js OR main.py OR app.tsx OR server.ts".data,
     "package.json main".data]
  else []

/-- Keyword loop of `_expand_query`: starting from `[query]`, append up to
two expansions per matched keyword, skipping duplicates. -/
def expandKeywordPhase (query : List Char) : List (List Char) :=
  QUERY_EXPANSIONS.foldl
    (fun qs kwExps =>
      if substr kwExps.1 (pyLower query) then
        (kwExps.2.take 2).foldl (fun qs e => addIfNew qs (query ++ ' ' :: e)) qs
      else qs)
    [query]

/-- `RAGPipeline._expand_query(query, intent)`. -/
def expandQuery (query : List Char) (intent : ChatIntent) : List (List Char) :=
  (dedup (expandKeywordPhase query ++ intentExtras query intent (pyLower query))).take 6

/-! ## Retrieved chunks and the grounding label (pipeline.py 382-391, 482-487) -/

structure RetrievedChunk where
  id : List Char
  content : List Char
  file_path : List Char
  start_line : ℕ
  end_line : ℕ
  chunk_type : List Char
  chunk_name : List Char
  score : ℚ
deriving DecidableEq, Repr

/-- `RAGPipeline._is_docs_path`. -/
def isDocsPath (file_path : List Char) : Bool :=
  let path := pyLower file_path
  endsWith "readme.md".data path || endsWith "readme".data path ||
    startsWith "docs/".data path || substr "/docs/".data path ||
    endsWith ".md".data path || endsWith ".mdx".data path

/-- Grounding computation of `RAGPipeline.retrieve` (pipeline.py 483-487):
count docs hits among the selected chunks, then label. -/
def groundingLabel (intent : ChatIntent) (selected : List RetrievedChunk) : List Char :=
  let docsHits := selected.countP (fun c => isDocsPath c.file_path)
  if intent = .overview then
    if docsHits ≥ 1 then "high".data
    else if ¬ selected.isEmpty then "medium".data
    else "low".data
  else if ¬ selected.isEmpty then "high".data
  else "low".data

/-! ## Helper lemmas -/

theorem foldl_inv_mem {α β : Type} (P : α → Prop) (f : α → β → α) :
    ∀ (l : List β) (a : α), (∀ a b, b ∈ l → P a → P (f a b)) → P a → P (l.foldl f a)
  | [], _, _, ha => ha
  | b :: l, a, hstep, ha =>
      foldl_inv_mem P f l (f a b)
        (fun a' b' hb' => hstep a' b' (List.mem_cons_of_mem _ hb'))
        (hstep a b (List.mem_cons_self _ _) ha)

theorem mem_addIfNew {qs : List (List Char)} {y x : List Char}
    (h : x ∈ addIfNew qs y) : x ∈ qs ∨ x = y := by
  unfold addIfNew at h
  split at h
  · exact Or.inl h
  · rcases List.mem_append.mp h with h' | h'
    · exact Or.inl h'
    · exact Or.inr (by simpa using h')

theorem head?_addIfNew {qs : List (List Char)} {y a : List Char}
    (h : qs.head? = some a) : (addIfNew qs y).head? = some a := by
  unfold addIfNew
  split
  · exact h
  · cases qs with
    | nil => simp at h
    | cons q t => simpa using h

theorem mem_dedupAux {x : List Char} :
    ∀ {l seen : List (List Char)}, x ∈ dedupAux l seen → x ∈ l := by
  intro l
  induction l with
  | nil => intro seen h; simp [dedupAux] at h
  | cons y ys ih =>
    intro seen h
    unfold dedupAux at h
    split at h
    · exact List.mem_cons_of_mem _ (ih h)
    · rcases List.mem_cons.mp h with h' | h'
      · exact h' ▸ List.mem_cons_self _ _
      · exact List.mem_cons_of_mem _ (ih h')

theorem dedupAux_nodup :
    ∀ (l seen : List (List Char)),
      (dedupAux l seen).Nodup ∧ ∀ x ∈ dedupAux l seen, x ∉ seen := by
  intro l
  induction l with
  | nil => intro seen; simp [dedupAux]
  | cons y ys ih =>
    intro seen
    unfold dedupAux
    split
    · exact ih seen
    · rename_i hy
      obtain ⟨hnd, hout⟩ := ih (y :: seen)
      refine ⟨List.nodup_cons.mpr ⟨?_, hnd⟩, ?_⟩
      · intro hmem
        exact hout y hmem (List.mem_cons_self _ _)
      · intro x hx
        rcases List.mem_cons.mp hx with h' | h'
        · exact h' ▸ hy
        · intro hseen
          exact hout x h' (List.mem_cons_of_mem _ hseen)

theorem dedup_nodup (l : List (List Char)) : (dedup l).Nodup :=
  (dedupAux_nodup l []).1

theorem mem_dedup {x : List Char} {l : List (List Char)} (h : x ∈ dedup l) : x ∈ l :=
  mem_dedupAux h

theorem dedup_cons_head (a : List Char) (l : List (List Char)) :
    dedup (a :: l) = a :: dedupAux l [a] := by
  simp [dedup, dedupAux]

/-! ## Claim theorems for the classifier, expander and grounding -/

/-- C3: for an overview-intent retrieval the grounding label is `"high"` when
some selected chunk has a documentation path, `"medium"` when the selection is
non-empty but has no documentation-path chunk, and `"low"` when the selection
is empty; for every other intent it is `"high"` iff the selection is
non-empty. -/
theorem grounding_label_rule (intent : ChatIntent) (selected : List RetrievedChunk) :
    (intent = .overview →
      ((∃ c ∈ selected, isDocsPath c.file_path = true) →
          groundingLabel intent selected = "high".data) ∧
      (selected ≠ [] → (∀ c ∈ selected, isDocsPath c.file_path = false) →
          groundingLabel intent selected = "medium".data) ∧
      (selected = [] → groundingLabel intent selected = "low".data)) ∧
    (intent ≠ .overview →
      (selected ≠ [] → groundingLabel intent selected = "high".data) ∧
      (selected = [] → groundingLabel intent selected = "low".data)) := by
  constructor
  · rintro rfl
    refine ⟨?_, ?_, ?_⟩
    · rintro ⟨c, hc, hdocs⟩
      have hpos : 0 < selected.countP (fun c => isDocsPath c.file_path) :=
        List.countP_pos_iff.mpr ⟨c, hc, hdocs⟩
      simp [groundingLabel, hpos, Nat.one_le_iff_ne_zero, Nat.pos_iff_ne_zero.mp hpos]
    · intro hne hnone
      have hzero : selected.countP (fun c => isDocsPath c.file_path) = 0 :=
        List.countP_eq_zero.mpr (by intro c hc; simp [hnone c hc])
      simp [groundingLabel, hzero, hne]
    · rintro rfl
      simp [groundingLabel]
  · intro hni
    refine ⟨?_, ?_⟩
    · intro hne
      simp [groundingLabel, hni, hne]
    · rintro rfl
      simp [groundingLabel, hni]

/-- C3 witness: concrete evaluations discharging each hypothesis of the
grounding rule. -/
theorem grounding_label_rule_witness :
    groundingLabel .overview
        [⟨"c1".data, "x".data, "README.md".data, 1, 2, "module".data, [], 0⟩]
      = "high".data ∧
    groundingLabel .overview
        [⟨"c2".data, "x".data, "src/a.py".data, 1, 2, "module".data, [], 0⟩]
      = "medium".data ∧
    groundingLabel .location [] = "low".data := by
  refine ⟨?_, ?_, ?_⟩
  · exact (grounding_label_rule .overview _).1 rfl |>.1 ⟨_, List.mem_cons_self _ _, by decide⟩
  · exact (grounding_label_rule .overview _).1 rfl |>.2.1 (by decide)
      (by intro c hc; simp at hc; subst hc; decide)
  · exact (grounding_label_rule .location _).2 (by decide) |>.2 rfl

/-- An element produced by the keyword phase of the expander: the query
extended by one of the first two expansion phrases of a matched keyword. -/
def kwCandidate (query x : List Char) : Prop :=
  ∃ kw exps, (kw, exps) ∈ QUERY_EXPANSIONS ∧ substr kw (pyLower query) = true ∧
    ∃ e ∈ exps.take 2, x = query ++ ' ' :: e

theorem expandKeywordPhase_spec (query : List Char) :
    (expandKeywordPhase query).head? = some query ∧
    ∀ x ∈ expandKeywordPhase query, x = query ∨ kwCandidate query x := by
  refine foldl_inv_mem
    (fun qs => qs.head? = some query ∧ ∀ x ∈ qs, x = query ∨ kwCandidate query x)
    _ QUERY_EXPANSIONS [query] ?_ ?_
  · intro a kwExps hmem ha
    dsimp only
    split
    · rename_i hsub
      refine foldl_inv_mem
        (fun qs => qs.head? = some query ∧ ∀ x ∈ qs, x = query ∨ kwCandidate query x)
        _ (kwExps.2.take 2) a ?_ ha
      intro a' e he ha'
      obtain ⟨hhead, hall⟩ := ha'
      refine ⟨head?_addIfNew hhead, ?_⟩
      intro x hx
      rcases mem_addIfNew hx with hx' | hx'
      · exact hall x hx'
      · exact Or.inr ⟨kwExps.1, kwExps.2, hmem, hsub, e, he, hx'⟩
    · exact ha
  · exact ⟨rfl, by intro x hx; simp at hx; exact Or.inl hx⟩

/-- C5: the query expander returns an ordered list whose first element is the
original query, of length at most 6, pairwise distinct, and every added
element is either one of the at-most-2 expansions of a matched keyword or an
intent-specific extra. -/
theorem expand_query_contract (query : List Char) (intent : ChatIntent) :
    (expandQuery query intent).head? = some query ∧
    (expandQuery query intent).length ≤ 6 ∧
    (expandQuery query intent).Nodup ∧
    ∀ x ∈ expandQuery query intent,
      x = query ∨ kwCandidate query x ∨
      x ∈ intentExtras query intent (pyLower query) := by
  obtain ⟨hhead, hall⟩ := expandKeywordPhase_spec query
  obtain ⟨t, ht⟩ : ∃ t, expandKeywordPhase query = query :: t := by
    cases hq : expandKeywordPhase query with
    | nil => rw [hq] at hhead; simp at hhead
    | cons a t => rw [hq] at hhead; simp at hhead; exact ⟨t, by rw [hhead]⟩
  have hexpand : expandQuery query intent =
      (query :: dedupAux (t ++ intentExtras query intent (pyLower query)) [query]).take 6 := by
    unfold expandQuery
    rw [ht, List.cons_append, dedup_cons_head]
  refine ⟨?_, ?_, ?_, ?_⟩
  · rw [hexpand]; simp
  · rw [hexpand]; exact List.length_take_le _ _
  · rw [hexpand]
    rw [show (query :: dedupAux (t ++ intentExtras query intent (pyLower query)) [query])
        = dedup (query :: (t ++ intentExtras query intent (pyLower query))) from
      (dedup_cons_head _ _).symm]
    exact List.Nodup.sublist (List.take_sublist _ _) (dedup_nodup _)
  · intro x hx
    rw [hexpand] at hx
    have hx' : x ∈ query :: dedupAux (t ++ intentExtras query intent (pyLower query)) [query] :=
      List.take_subset _ _ hx
    rcases List.mem_cons.mp hx' with h' | h'
    · exact Or.inl h'
    · have hx2 : x ∈ t ++ intentExtras query intent (pyLower query) := mem_dedupAux h'
      rcases List.mem_append.mp hx2 with h'' | h''
      · rcases hall x (by rw [ht]; exact List.mem_cons_of_mem _ h'') with h3 | h3
        · exact Or.inl h3
        · exact Or.inr (Or.inl h3)
      · exact Or.inr (Or.inr h'')

/-- C6: a valid explicit mode always wins regardless of the query, and when
every intent scores zero under the heuristics, classification defaults to the
implementation intent. -/
theorem classify_intent_override_and_default :
    (∀ (query mode : List Char) (i : ChatIntent),
        parseChatIntent mode = some i → classifyIntent query mode = i) ∧
    (∀ query : List Char, (∀ i ∈ intentList, intentScore query i = 0) →
        classifyIntent query "auto".data = .implementation) := by
  constructor
  · intro query mode i h
    have hne : mode ≠ [] ∧ mode ≠ "auto".data := by
      unfold parseChatIntent at h
      split_ifs at h with h1 h2 h3 h4 h5 <;>
        (subst_vars; constructor <;> decide)
    unfold classifyIntent
    rw [if_pos hne, h]
  · intro query hzero
    have hauto : classifyIntent query "auto".data = classifyAuto query := by
      unfold classifyIntent
      rw [if_neg (by simp)]
    rw [hauto]
    unfold classifyAuto
    cases hord : orderedIntentScores query with
    | nil => rfl
    | cons p rest =>
      have hmem : p ∈ orderedIntentScores query := by rw [hord]; exact List.mem_cons_self _ _
      have hmem' : p ∈ intentList.map (fun i => (i, intentScore query i)) :=
        (List.mergeSort_perm _ _).mem_iff.mp hmem
      obtain ⟨i, hi, hpi⟩ := List.mem_map.mp hmem'
      have : p.2 = 0 := by rw [← hpi]; exact hzero i hi
      cases p with
      | mk b s =>
        simp only at this
        rw [this]
        rfl

/-- C6 witness: the override wins on `mode="tech_stack"`, and the query
`"hi"`, whose every intent score is zero, classifies as implementation. -/
theorem classify_intent_override_and_default_witness :
    classifyIntent "what files are here".data "tech_stack".data = .tech_stack ∧
    ((∀ i ∈ intentList, intentScore "hi".data i = 0) ∧
      classifyIntent "hi".data "auto".data = .implementation) := by
  refine ⟨?_, ?_, ?_⟩
  · exact classify_intent_override_and_default.1 _ _ _ (by decide)
  · decide
  · exact classify_intent_override_and_default.2 _ (by decide)

/-! ## Hybrid scorer (`ChromaStore.hybrid_search`, chroma_store.py 146-368) -/

/-- Metadata fields of a vector-store hit that `hybrid_search` reads
(`file_path` and `chunk_type`; the remaining provider fields are not
consulted by the scorer). -/
structure StoreMetadata where
  file_path : List Char
  chunk_type : List Char
deriving DecidableEq, Repr

/-- `SearchResult` of chroma_store.py. -/
structure SearchResult where
  id : List Char
  score : ℚ
  content : List Char
  metadata : StoreMetadata
deriving DecidableEq, Repr

/-- Scoring weights of one profile (the per-profile constant dictionaries). -/
structure Weights where
  vector_alpha : ℚ
  keyword_weight : ℚ
  file_weight : ℚ
  docs_boost : ℚ
  manifest_boost : ℚ
  trivial_penalty : ℚ
  module_weight : ℚ
  symbol_weight : ℚ
deriving DecidableEq, Repr

def docsFirstWeights : Weights :=
  ⟨0.45, 0.18, 0.22, 0.45, 0.12, 0.55, 0.05, 0.08⟩

def codeFirstWeights : Weights :=
  ⟨0.65, 0.15, 0.18, 0.08, 0.08, 0.30, 0.18, 0.14⟩

def stackWeights : Weights :=
  ⟨0.50, 0.16, 0.20, 0.22, 0.40, 0.35, 0.08, 0.10⟩

def locationWeights : Weights :=
  ⟨0.55, 0.12, 0.34, 0.10, 0.12, 0.25, 0.16, 0.08⟩

def errorFocusWeights : Weights :=
  ⟨0.58, 0.20, 0.18, 0.08, 0.10, 0.25, 0.16, 0.14⟩

def balancedWeights (alpha : ℚ) : Weights :=
  ⟨alpha, 0.15, 0.20, 0.18, 0.15, 0.25, 0.15, 0.10⟩

/-- `weight_profiles.get(profile, weight_profiles["balanced"])`. -/
def weightsFor (profile : List Char) (alpha : ℚ) : Weights :=
  if profile = "docs_first".data then docsFirstWeights
  else if profile = "code_first".data then codeFirstWeights
  else if profile = "stack".data then stackWeights
  else if profile = "location".data then locationWeights
  else if profile = "error_focus".data then errorFocusWeights
  else balancedWeights alpha

/-- `important_patterns` of `hybrid_search`. -/
def importantPatterns : List (List Char × List (List Char)) :=
  [("entry".data, ["index".data, "main".data, "app".data, "server".data, "start".data]),
   ("config".data, ["config".data, "settings".data, "env".data, ".json".data]),
   ("route".data, ["route".data, "api".data, "handler".data, "controller".data]),
   ("model".data, ["model".data, "schema".data, "type".data, "interface".data])]

/-- `ChromaStore._normalize_query_terms` stop-word set. -/
def STOPWORDS : List (List Char) :=
  ["a".data, "an".data, "and".data, "are".data, "as".data, "at".data, "be".data,
   "by".data, "for".data, "from".data, "how".data, "in".data, "is".data, "it".data,
   "of".data, "on".data, "or".data, "that".data, "the".data, "this".data, "to".data,
   "what".data, "where".data, "which".data, "with".data]

/-- Character class of `re.findall(r"[a-zA-Z0-9_.-]+", ...)`. -/
def isTermChar (c : Char) : Bool := c.isAlphanum || c = '_' || c = '.' || c = '-'

/-- `ChromaStore._normalize_query_terms`. -/
def normalizeQueryTerms (queryText : List Char) : List (List Char) :=
  (charRuns isTermChar (pyLower queryText)).filter
    (fun term => decide (1 < term.length) && !STOPWORDS.contains term)

/-- `ChromaStore._is_docs_path` (the store variant; caller passes a
lower-cased path). -/
def storeIsDocsPath (file_path : List Char) : Bool :=
  endsWith "readme.md".data file_path || endsWith "readme".data file_path ||
    endsWith ".md".data file_path || endsWith ".mdx".data file_path ||
    startsWith "docs/".data file_path || substr "/docs/".data file_path

/-- `ChromaStore._is_manifest_path`. -/
def storeIsManifestPath (file_path : List Char) : Bool :=
  endsWith "package.json".data file_path || endsWith "requirements.txt".data file_path ||
    endsWith "pyproject.toml".data file_path || endsWith "go.mod".data file_path ||
    endsWith "cargo.toml".data file_path || endsWith "pom.xml".data file_path

/-- `ChromaStore._is_trivial_chunk`. -/
def isTrivialChunk (content chunk_type : List Char) : Bool :=
  let compact := collapseWs (pyLower (pyStrip content))
  if compact.length ≤ 32 ∧
      (compact = "export \x7b\x7d;".data ∨ compact = "export \x7b\x7d".data) then
    true
  else if chunk_type = "file_summary".data ∧ compact.length ≤ 80 ∧
      startsWith "export".data compact then
    true
  else false

/-- Lexical-overlap boost: `keyword_matches * weights["keyword_weight"]`. -/
def keywordBoost (w : Weights) (terms : List (List Char)) (contentLower : List Char) : ℚ :=
  (terms.countP (fun t => substr t contentLower) : ℚ) * w.keyword_weight

/-- Path-match boost: `file_weight` once per query term inside the path. -/
def fileBoost (w : Weights) (terms : List (List Char)) (filePath : List Char) : ℚ :=
  (terms.countP (fun t => substr t filePath) : ℚ) * w.file_weight

/-- Pattern boost: `+0.3` per important-pattern key present in the query whose
name list matches the file path (the inner loop breaks after one match). -/
def patternBoost (queryLower filePath : List Char) : ℚ :=
  importantPatterns.foldl
    (fun acc pk =>
      if substr pk.1 queryLower ∧ pk.2.any (fun p => substr p filePath) then acc + 0.3
      else acc)
    0

/-- Chunk-type relevance boost. -/
def typeBoost (w : Weights) (chunk_type : List Char) : ℚ :=
  if chunk_type = "file_summary".data then 0.2
  else if chunk_type = "raw_file".data then 0.2
  else if chunk_type = "module".data then w.module_weight
  else if chunk_type = "function".data ∨ chunk_type = "class".data ∨
      chunk_type = "method".data then w.symbol_weight
  else 0

/-- Location-profile extra boost (compacted query inside compacted path). -/
def locationBoost (profile : List Char) (terms : List (List Char)) (filePath : List Char) : ℚ :=
  if profile = "location".data then
    let compactQuery := terms.flatten
    let compactPath := filePath.filter (fun c => c ≠ '/')
    if ¬ compactQuery.isEmpty ∧ substr compactQuery compactPath then 0.45 else 0
  else 0

/-- Error-focus extra boost (error vocabulary in the content). -/
def errorBoost (profile contentLower : List Char) : ℚ :=
  if profile = "error_focus".data ∧
      ["error".data, "exception".data, "raise".data, "throw".data,
       "retry".data, "fallback".data].any (fun t => substr t contentLower) then 0.25
  else 0

/-- Total heuristic boost of a candidate (the `total_boost` sum). -/
def totalBoost (w : Weights) (profile queryLower : List Char) (terms : List (List Char))
    (r : SearchResult) : ℚ :=
  let contentLower := pyLower r.content
  let filePath := pyLower r.metadata.file_path
  keywordBoost w terms contentLower + fileBoost w terms filePath +
    patternBoost queryLower filePath + typeBoost w r.metadata.chunk_type +
    (if storeIsDocsPath filePath then w.docs_boost else 0) +
    (if storeIsManifestPath filePath then w.manifest_boost else 0) +
    locationBoost profile terms filePath + errorBoost profile contentLower

/-- Trivial-content penalty of a candidate. -/
def trivialPenaltyOf (w : Weights) (r : SearchResult) : ℚ :=
  if isTrivialChunk r.content r.metadata.chunk_type then w.trivial_penalty else 0

/-- The final score assigned by `hybrid_search`. -/
def finalScore (w : Weights) (profile queryLower : List Char) (terms : List (List Char))
    (r : SearchResult) : ℚ :=
  w.vector_alpha * r.score +
    (1 - w.vector_alpha) * min (totalBoost w profile queryLower terms r) 1.5 -
    trivialPenaltyOf w r

/-- Allowlist as cleaned by `hybrid_search`:
`[p.lower().strip() for p in (path_allowlist or []) if p.strip()]`. -/
def cleanedAllowlist (pathAllowlist : Option (List (List Char))) : List (List Char) :=
  ((pathAllowlist.getD []).filter (fun p => ¬ (pyStrip p).isEmpty)).map
    (fun p => pyStrip (pyLower p))

/-- `ChromaStore.hybrid_search` applied to the raw similarity results returned
by the external vector search (the `self.search(...)` call is the external
collaborator and is passed in as `results`). -/
def hybridSearch (results : List SearchResult) (queryText : List Char) (limit : ℕ)
    (alpha : ℚ) (profile : List Char) (pathAllowlist : Option (List (List Char))) :
    List SearchResult :=
  let queryLower := pyStrip (pyLower queryText)
  let terms := normalizeQueryTerms queryText
  let allowlist := cleanedAllowlist pathAllowlist
  let w := weightsFor profile alpha
  let boosted := results.filterMap (fun r =>
    let filePath := pyLower r.metadata.file_path
    if ¬ allowlist.isEmpty ∧ ¬ allowlist.any (fun a => substr a filePath) then none
    else some { r with score := finalScore w profile queryLower terms r })
  (boosted.mergeSort (fun a b => decide (b.score ≤ a.score))).take limit

/-- C4: every surviving candidate is assigned the final score
`vectorAlpha * similarity + (1 - vectorAlpha) * min(totalBoost, 1.5) -
trivialPenalty` with the weights of the selected profile, the result is
sorted descending by that final score and truncated to the caller's limit
(hence no more items than candidates), under a supplied allowlist every
returned candidate's path contains at least one allowed entry, and the five
named profiles carry fixed weight constants. -/
theorem hybrid_search_contract (results : List SearchResult) (queryText : List Char)
    (limit : ℕ) (alpha : ℚ) (profile : List Char)
    (pathAllowlist : Option (List (List Char))) :
    (∀ r' ∈ hybridSearch results queryText limit alpha profile pathAllowlist,
        ∃ r ∈ results,
          r' = { r with score :=
            ((weightsFor profile alpha).vector_alpha * r.score +
              (1 - (weightsFor profile alpha).vector_alpha) *
                min (totalBoost (weightsFor profile alpha) profile
                      (pyStrip (pyLower queryText)) (normalizeQueryTerms queryText) r) 1.5 -
              trivialPenaltyOf (weightsFor profile alpha) r) }) ∧
    (hybridSearch results queryText limit alpha profile pathAllowlist).Pairwise
      (fun a b => b.score ≤ a.score) ∧
    (hybridSearch results queryText limit alpha profile pathAllowlist).length ≤ limit ∧
    (hybridSearch results queryText limit alpha profile pathAllowlist).length ≤
      results.length ∧
    (cleanedAllowlist pathAllowlist ≠ [] →
      ∀ r' ∈ hybridSearch results queryText limit alpha profile pathAllowlist,
        (cleanedAllowlist pathAllowlist).any
          (fun a => substr a (pyLower r'.metadata.file_path)) = true) ∧
    (∀ alpha₁ alpha₂ : ℚ,
      profile ∈ ["docs_first".data, "code_first".data, "stack".data,
                 "location".data, "error_focus".data] →
      weightsFor profile alpha₁ = weightsFor profile alpha₂) := by
  have hmem_boosted :
      ∀ r' ∈ hybridSearch results queryText limit alpha profile pathAllowlist,
        ∃ r ∈ results,
          (¬ ((cleanedAllowlist pathAllowlist) ≠ [] ∧
              ¬ (cleanedAllowlist pathAllowlist).any
                  (fun a => substr a (pyLower r.metadata.file_path)))) ∧
          r' = { r with score :=
            (finalScore (weightsFor profile alpha) profile (pyStrip (pyLower queryText))
              (normalizeQueryTerms queryText) r) } := by
    intro r' hr'
    have hr'' := List.take_subset _ _ hr'
    have hr3 := (List.mergeSort_perm _
      (fun a b : SearchResult => decide (b.score ≤ a.score))).subset hr''
    obtain ⟨r, hr, hf⟩ := List.mem_filterMap.mp hr3
    by_cases hguard : ¬ (cleanedAllowlist pathAllowlist).isEmpty ∧
        ¬ (cleanedAllowlist pathAllowlist).any
            (fun a => substr a (pyLower r.metadata.file_path)) = true
    · rw [if_pos hguard] at hf
      exact absurd hf (by simp)
    · rw [if_neg hguard] at hf
      refine ⟨r, hr, ?_, ?_⟩
      · intro hcontra
        apply hguard
        refine ⟨?_, ?_⟩
        · simpa [List.isEmpty_iff] using hcontra.1
        · simpa using hcontra.2
      · exact (Option.some_inj.mp hf).symm
  refine ⟨?_, ?_, ?_, ?_, ?_, ?_⟩
  · intro r' hr'
    obtain ⟨r, hr, _, heq⟩ := hmem_boosted r' hr'
    exact ⟨r, hr, heq⟩
  · have htrans : ∀ a b c : SearchResult,
        (decide (b.score ≤ a.score)) = true → (decide (c.score ≤ b.score)) = true →
        (decide (c.score ≤ a.score)) = true := by
      intro a b c h1 h2
      simp only [decide_eq_true_eq] at *
      exact le_trans h2 h1
    have htotal : ∀ a b : SearchResult,
        ((decide (b.score ≤ a.score)) || (decide (a.score ≤ b.score))) = true := by
      intro a b
      simp only [Bool.or_eq_true, decide_eq_true_eq]
      exact le_total b.score a.score
    have hsorted := List.sorted_mergeSort htrans htotal
      (results.filterMap (fun r =>
        let filePath := pyLower r.metadata.file_path
        if ¬ (cleanedAllowlist pathAllowlist).isEmpty ∧
            ¬ (cleanedAllowlist pathAllowlist).any (fun a => substr a filePath) then none
        else some { r with score :=
          (finalScore (weightsFor profile alpha) profile (pyStrip (pyLower queryText))
            (normalizeQueryTerms queryText) r) }))
    have hsorted' := hsorted.imp (fun h => of_decide_eq_true h)
    exact List.Pairwise.sublist (List.take_sublist _ _) hsorted'
  · exact List.length_take_le _ _
  · have hdef : hybridSearch results queryText limit alpha profile pathAllowlist =
        ((results.filterMap (fun r =>
          let filePath := pyLower r.metadata.file_path
          if ¬ (cleanedAllowlist pathAllowlist).isEmpty ∧
              ¬ (cleanedAllowlist pathAllowlist).any (fun a => substr a filePath) then none
          else some { r with score :=
            (finalScore (weightsFor profile alpha) profile (pyStrip (pyLower queryText))
              (normalizeQueryTerms queryText) r) })).mergeSort
          (fun a b => decide (b.score ≤ a.score))).take limit := rfl
    rw [hdef, List.length_take]
    refine le_trans (min_le_right _ _) ?_
    rw [(List.mergeSort_perm _ _).length_eq]
    exact List.length_filterMap_le _ _
  · intro hne r' hr'
    obtain ⟨r, _, hguard, heq⟩ := hmem_boosted r' hr'
    have hmeta : r'.metadata = r.metadata := by rw [heq]
    rw [hmeta]
    by_contra hnot
    exact hguard ⟨hne, by simpa using hnot⟩
  · intro alpha₁ alpha₂ hp
    simp only [List.mem_cons, List.not_mem_nil, or_false] at hp
    rcases hp with h | h | h | h | h <;> subst h <;> rfl

/-- C4 witness: a concrete hybrid search with a supplied allowlist and the
docs-first profile, discharging the hypotheses of the contract. -/
theorem hybrid_search_contract_witness :
    cleanedAllowlist (some ["src".data]) ≠ [] ∧
    (∀ r' ∈ hybridSearch
        [⟨"id1".data, 0.7, "export \x7b\x7d;".data, ⟨"src/a.ts".data, "module".data⟩⟩,
         ⟨"id2".data, 0.5, "overview".data, ⟨"src/README.md".data, "file_summary".data⟩⟩]
        "what is this".data 5 0.5 "docs_first".data (some ["src".data]),
      (cleanedAllowlist (some ["src".data])).any
        (fun a => substr a (pyLower r'.metadata.file_path)) = true) ∧
    weightsFor "docs_first".data 0 = weightsFor "docs_first".data 1 := by
  refine ⟨by decide, ?_, ?_⟩
  · exact (hybrid_search_contract
      [⟨"id1".data, 0.7, "export \x7b\x7d;".data, ⟨"src/a.ts".data, "module".data⟩⟩,
       ⟨"id2".data, 0.5, "overview".data, ⟨"src/README.md".data, "file_summary".data⟩⟩]
      "what is this".data 5 0.5 "docs_first".data (some ["src".data])).2.2.2.2.1
      (by decide)
  · exact (hybrid_search_contract [] [] 0 0 "docs_first".data none).2.2.2.2.2 0 1
      (by decide)

/-- C10: a mode string that is neither `"auto"` nor a valid intent literal
never raises: both classifiers fall back to the heuristic auto
classification, exactly as if `"auto"` had been passed. -/
theorem classify_invalid_mode_falls_back (query mode : List Char)
    (hmode : mode ≠ "auto".data) (hparse : parseChatIntent mode = none) :
    classifyIntent query mode = classifyIntent query "auto".data ∧
    ∀ (tb : Bool) (f : List Char → List ChatIntent → Option ChatIntent),
      classifyIntentAsync query mode tb f = classifyIntentAsync query "auto".data tb f := by
  constructor
  · by_cases hnil : mode = []
    · subst hnil
      unfold classifyIntent
      rw [if_neg (by simp), if_neg (by simp)]
    · unfold classifyIntent
      rw [if_pos ⟨hnil, hmode⟩, hparse, if_neg (by simp)]
  · intro tb f
    by_cases hnil : mode = []
    · subst hnil
      unfold classifyIntentAsync
      rw [if_neg (by simp), if_neg (by simp)]
    · unfold classifyIntentAsync
      rw [if_pos ⟨hnil, hmode⟩, hparse, if_neg (by simp)]

/-- C10 witness: the spec's hyphenated `"tech-stack"` is not a valid intent
literal, and classification on it equals the auto classification. -/
theorem classify_invalid_mode_falls_back_witness :
    classifyIntent "how does auth work".data "tech-stack".data =
      classifyIntent "how does auth work".data "auto".data ∧
    classifyIntentAsync "how does auth work".data "tech-stack".data true
        (fun _ _ => none) =
      classifyIntentAsync "how does auth work".data "auto".data true
        (fun _ _ => none) := by
  have h := classify_invalid_mode_falls_back "how does auth work".data "tech-stack".data
    (by decide) (by decide)
  exact ⟨h.1, h.2 true (fun _ _ => none)⟩

/-! ## Context assembler (`RAGPipeline._build_context`, pipeline.py 606-675) -/

/-- Decimal digits of a natural number (Python f-string interpolation). -/
def natToChars (n : ℕ) : List Char := (Nat.repr n).data

/-- `basename = lowered.rsplit("/", 1)[-1]` of `_language_for_file`. -/
def basenameOf (lowered : List Char) : List Char :=
  (lowered.reverse.takeWhile (fun c => c ≠ '/')).reverse

/-- Extension dispatch of `_language_for_file` over the lowered path and its
basename. -/
def langFromLowered (lowered basename : List Char) : List Char :=
  if endsWith ".ts".data lowered ∨ endsWith ".tsx".data lowered then "typescript".data
  else if endsWith ".py".data lowered then "python".data
  else if endsWith ".js".data lowered ∨ endsWith ".jsx".data lowered then "javascript".data
  else if endsWith ".java".data lowered then "java".data
  else if endsWith ".go".data lowered then "go".data
  else if endsWith ".rs".data lowered then "rust".data
  else if endsWith ".cs".data lowered ∨ endsWith ".csx".data lowered then "csharp".data
  else if endsWith ".cpp".data lowered ∨ endsWith ".cc".data lowered ∨
      endsWith ".cxx".data lowered ∨ endsWith ".hpp".data lowered ∨
      endsWith ".hh".data lowered ∨ endsWith ".hxx".data lowered ∨
      endsWith ".ipp".data lowered ∨ endsWith ".tpp".data lowered ∨
      endsWith ".h".data lowered then "cpp".data
  else if endsWith ".rb".data lowered ∨ endsWith ".rake".data lowered ∨
      endsWith ".gemspec".data lowered ∨ endsWith ".ru".data lowered ∨
      basename = "gemfile".data ∨ basename = "rakefile".data then "ruby".data
  else if endsWith ".erb".data lowered then "erb".data
  else if endsWith ".json".data lowered then "json".data
  else if endsWith ".yml".data lowered ∨ endsWith ".yaml".data lowered then "yaml".data
  else if endsWith ".md".data lowered ∨ endsWith ".mdx".data lowered then "markdown".data
  else []

/-- `RAGPipeline._language_for_file`. -/
def languageForFile (file_path : List Char) : List Char :=
  langFromLowered (pyLower file_path) (basenameOf (pyLower file_path))

/-- The chunk header line emitted per chunk. -/
def chunkHeader (c : RetrievedChunk) : List Char :=
  "**".data ++ pyUpper c.chunk_type ++ "** `".data ++
    (if c.chunk_name.isEmpty then "unnamed".data else c.chunk_name) ++
    "` (L".data ++ natToChars c.start_line ++ "-".data ++ natToChars c.end_line ++ ")".data

/-- Chunk content after strip and the 1800-character truncation. -/
def processedContent (c : RetrievedChunk) : List Char :=
  let content := pyStrip c.content
  if 1800 < content.length then content.take 1800 ++ "\n... [truncated]".data
  else content

/-- The fenced body emitted per chunk:
`f"{header}\n'''{lang}\n{content}\n'''\n"` with backtick fences. -/
def chunkBody (c : RetrievedChunk) : List Char :=
  chunkHeader c ++ "\n```".data ++ languageForFile c.file_path ++ "\n".data ++
    processedContent c ++ "\n```\n".data

/-- `by_file.setdefault(chunk.file_path, []).append(chunk)` on an
insertion-ordered dict. -/
def insertGroup : List (List Char × List RetrievedChunk) → RetrievedChunk →
    List (List Char × List RetrievedChunk)
  | [], c => [(c.file_path, [c])]
  | g :: rest, c =>
      if g.1 = c.file_path then (g.1, g.2 ++ [c]) :: rest
      else g :: insertGroup rest c

def groupByFile (chunks : List RetrievedChunk) : List (List Char × List RetrievedChunk) :=
  chunks.foldl insertGroup []

def truncationNotice : List Char := "*Context truncated due to budget.*".data

/-- Inner loop of `_build_context` over one file's chunks: emit whole bodies
while they fit; on overflow emit a single notice, pin the running total to the
budget and stop. Returns the emitted parts and the new running total. -/
def emitChunks (budget : ℕ) : List RetrievedChunk → ℕ → (List (List Char) × ℕ)
  | [], total => ([], total)
  | c :: cs, total =>
      let body := chunkBody c
      if budget < total + body.length then ([truncationNotice], budget)
      else
        let rest := emitChunks budget cs (total + body.length)
        (body :: rest.1, rest.2)

/-- Outer loop of `_build_context` over the file groups: a `### file` header
then that file's bodies; once the running total reaches the budget, one notice
and stop. -/
def emitFiles (budget : ℕ) : List (List Char × List RetrievedChunk) → ℕ → List (List Char)
  | [], _ => []
  | (fp, cs) :: rest, total =>
      if budget ≤ total then [truncationNotice]
      else
        let inner := emitChunks budget cs total
        (("### ".data ++ fp) :: inner.1) ++ emitFiles budget rest inner.2

/-- `"\n".join(parts)`. -/
def joinParts : List (List Char) → List Char
  | [] => []
  | [p] => p
  | p :: rest => p ++ '\n' :: joinParts rest

/-- `max_chars or settings.chat_context_max_chars`: `None` or the falsy `0`
select the configured default 18000. -/
def budgetOf (maxChars : Option ℕ) : ℕ :=
  match maxChars with
  | none => 18000
  | some 0 => 18000
  | some m => m

/-- `RAGPipeline._build_context(chunks, max_chars)`. -/
def buildContext (chunks : List RetrievedChunk) (maxChars : Option ℕ) : List Char :=
  if chunks.isEmpty then "No relevant repository context found.".data
  else
    let budget := budgetOf maxChars
    let groups := groupByFile chunks
    let headerParts :=
      "### Files Referenced".data ::
        (groups.map (fun g => "- `".data ++ g.1 ++ "`".data) ++ [[]])
    joinParts (headerParts ++ emitFiles budget groups 0)

/-- Total raw content length of the input chunks. -/
def totalContentLength (chunks : List RetrievedChunk) : ℕ :=
  (chunks.map (fun c => c.content.length)).sum

/-- A chunk with a 300-character path and 600 characters of content. -/
def bigChunk : RetrievedChunk :=
  ⟨"c1".data, List.replicate 600 'b', List.replicate 300 'a', 1, 2,
   "module".data, [], 0⟩

set_option maxRecDepth 8000 in
/-- C1 counterexample: a non-empty chunk list whose total content (600) exceeds
`max_chars = 500`, yet the assembled context is 666 characters long — more
than `max_chars` plus the 34-character truncation notice — because the
files-referenced header and the section header are not counted against the
budget. -/
theorem build_context_budget_counterexample :
    ([bigChunk] ≠ ([] : List RetrievedChunk)) ∧
    totalContentLength [bigChunk] = 600 ∧ 500 < 600 ∧
    truncationNotice.length = 34 ∧
    (buildContext [bigChunk] (some 500)).length = 666 ∧
    500 + truncationNotice.length < (buildContext [bigChunk] (some 500)).length := by
  refine ⟨by decide, by decide, by decide, by decide, ?_, ?_⟩
  · decide
  · decide

/-! ## Bounds for the context assembler -/

/-- Cost of a parts list: each part plus its joining newline. -/
def partsCost (ps : List (List Char)) : ℕ := (ps.map (fun p => p.length + 1)).sum

theorem partsCost_nil : partsCost [] = 0 := rfl

theorem partsCost_cons (p : List Char) (ps : List (List Char)) :
    partsCost (p :: ps) = (p.length + 1) + partsCost ps := by
  simp [partsCost]

theorem partsCost_append (a b : List (List Char)) :
    partsCost (a ++ b) = partsCost a + partsCost b := by
  simp [partsCost]

theorem joinParts_length_le : ∀ ps : List (List Char), (joinParts ps).length ≤ partsCost ps := by
  intro ps
  induction ps with
  | nil => simp [joinParts, partsCost]
  | cons p rest ih =>
    cases rest with
    | nil => simp [joinParts, partsCost]
    | cons q t =>
      have : joinParts (p :: q :: t) = p ++ '\n' :: joinParts (q :: t) := rfl
      rw [this, partsCost_cons]
      simp only [List.length_append, List.length_cons]
      omega

theorem insertGroup_sizes (c : RetrievedChunk) :
    ∀ acc, ((insertGroup acc c).map (fun g => g.2.length)).sum =
      (acc.map (fun g => g.2.length)).sum + 1 := by
  intro acc
  induction acc with
  | nil => simp [insertGroup]
  | cons g rest ih =>
    unfold insertGroup
    split
    · simp only [List.map_cons, List.sum_cons]
      simp
      omega
    · simp only [List.map_cons, List.sum_cons, ih]
      omega

theorem foldl_insertGroup_sizes :
    ∀ (l : List RetrievedChunk) (acc : List (List Char × List RetrievedChunk)),
      ((l.foldl insertGroup acc).map (fun g => g.2.length)).sum =
        (acc.map (fun g => g.2.length)).sum + l.length := by
  intro l
  induction l with
  | nil => intro acc; simp
  | cons c l ih =>
    intro acc
    have h1 : ((c :: l).foldl insertGroup acc) =
        (l.foldl insertGroup (insertGroup acc c)) := rfl
    rw [h1, ih (insertGroup acc c), insertGroup_sizes]
    simp only [List.length_cons]
    omega

theorem groupByFile_sizes (chunks : List RetrievedChunk) :
    ((groupByFile chunks).map (fun g => g.2.length)).sum = chunks.length := by
  have := foldl_insertGroup_sizes chunks []
  simpa [groupByFile] using this

theorem sum_map_add_pair (l : List (List Char × List RetrievedChunk)) :
    (l.map (fun g => (g.1.length + 5) + g.2.length)).sum =
      (l.map (fun g => g.1.length + 5)).sum + (l.map (fun g => g.2.length)).sum := by
  induction l with
  | nil => simp
  | cons g rest ih => simp only [List.map_cons, List.sum_cons, ih]; omega

theorem emitChunks_snd (budget : ℕ) :
    ∀ (cs : List RetrievedChunk) (t : ℕ), t ≤ budget →
      t ≤ (emitChunks budget cs t).2 ∧ (emitChunks budget cs t).2 ≤ budget := by
  intro cs
  induction cs with
  | nil => intro t ht; exact ⟨le_refl _, ht⟩
  | cons c cs ih =>
    intro t ht
    rw [emitChunks]
    split
    · exact ⟨ht, le_refl _⟩
    · rename_i hfit
      dsimp only
      have h2 := ih (t + (chunkBody c).length) (by omega)
      exact ⟨le_trans (by omega) h2.1, h2.2⟩

theorem emitChunks_cost (budget : ℕ) :
    ∀ (cs : List RetrievedChunk) (t : ℕ), t ≤ budget →
      partsCost (emitChunks budget cs t).1 ≤
        ((emitChunks budget cs t).2 - t) + cs.length + 35 ∧
      ((emitChunks budget cs t).2 < budget →
        partsCost (emitChunks budget cs t).1 ≤
          ((emitChunks budget cs t).2 - t) + cs.length) := by
  intro cs
  induction cs with
  | nil =>
    intro t ht
    constructor
    · simp [emitChunks, partsCost]
    · intro _; simp [emitChunks, partsCost]
  | cons c cs ih =>
    intro t ht
    rw [emitChunks]
    split
    · constructor
      · have hn : partsCost [truncationNotice] = 35 := by decide
        rw [hn]
        omega
      · intro h
        exact absurd h (lt_irrefl budget)
    · rename_i hfit
      dsimp only
      have hle : t + (chunkBody c).length ≤ budget := by omega
      have ihh := ih (t + (chunkBody c).length) hle
      have hsnd := emitChunks_snd budget cs (t + (chunkBody c).length) hle
      rw [partsCost_cons]
      constructor
      · have h1 := ihh.1
        simp only [List.length_cons]
        omega
      · intro hlt
        have h2 := ihh.2 hlt
        simp only [List.length_cons]
        omega

theorem emitFiles_stop (budget : ℕ) :
    ∀ (groups : List (List Char × List RetrievedChunk)) (t : ℕ), budget ≤ t →
      partsCost (emitFiles budget groups t) ≤ 35 := by
  intro groups t h
  cases groups with
  | nil => simp [emitFiles, partsCost]
  | cons g rest =>
    obtain ⟨fp, cs⟩ := g
    unfold emitFiles
    rw [if_pos h]
    decide

theorem emitFiles_cost (budget : ℕ) :
    ∀ (groups : List (List Char × List RetrievedChunk)) (t : ℕ), t ≤ budget →
      partsCost (emitFiles budget groups t) ≤
        (budget - t) + ((groups.map (fun g => (g.1.length + 5) + g.2.length)).sum) + 70 := by
  intro groups
  induction groups with
  | nil => intro t ht; simp [emitFiles, partsCost]
  | cons g rest ih =>
    intro t ht
    obtain ⟨fp, cs⟩ := g
    rw [emitFiles]
    split
    · rename_i hstop
      have hn : partsCost [truncationNotice] = 35 := by decide
      rw [hn]
      omega
    · rename_i hgo
      dsimp only
      have hsnd := emitChunks_snd budget cs t ht
      have hcost := emitChunks_cost budget cs t ht
      rw [partsCost_append, partsCost_cons]
      have hfp : ("### ".data ++ fp).length = 4 + fp.length := by
        simp [List.length_append]
        omega
      rw [hfp]
      by_cases hS : (emitChunks budget cs t).2 < budget
      · have hinner := hcost.2 hS
        have houter := ih (emitChunks budget cs t).2 (le_of_lt hS)
        simp only [List.map_cons, List.sum_cons]
        omega
      · have hSb : (emitChunks budget cs t).2 = budget :=
          le_antisymm hsnd.2 (not_lt.mp hS)
        have hinner := hcost.1
        have houter := emitFiles_stop budget rest (emitChunks budget cs t).2 (by omega)
        simp only [List.map_cons, List.sum_cons]
        omega

/-- Uncounted fixed overhead of `_build_context`: the files-referenced header
block, one listing line and one section header per distinct file, the joining
newlines (one per chunk body), and at most two truncation notices. -/
def contextOverhead (chunks : List RetrievedChunk) : ℕ :=
  92 + 2 * ((groupByFile chunks).map (fun g => g.1.length + 5)).sum + chunks.length

/-! ## Fence-balance analysis of the assembled context -/

/-- Split into lines at every newline character (`text.split("\n")`). -/
def linesOf : List Char → List (List Char)
  | [] => [[]]
  | c :: cs =>
      if c = '\n' then [] :: linesOf cs
      else
        match linesOf cs with
        | [] => [[c]]
        | l :: ls => (c :: l) :: ls

/-- A line that opens or closes a Markdown code fence. -/
def fenceLine (l : List Char) : Bool := "```".data.isPrefixOf l

/-- Number of fence-delimiter lines in a text. -/
def fencesIn (p : List Char) : ℕ := (linesOf p).countP fenceLine

theorem linesOf_ne_nil : ∀ s : List Char, linesOf s ≠ [] := by
  intro s
  induction s with
  | nil => simp [linesOf]
  | cons c cs ih =>
    unfold linesOf
    split
    · simp
    · cases h : linesOf cs with
      | nil => simp
      | cons l ls => simp

theorem linesOf_cons (c : Char) (cs : List Char) :
    linesOf (c :: cs) =
      if c = '\n' then [] :: linesOf cs
      else
        match linesOf cs with
        | [] => [[c]]
        | l :: ls => (c :: l) :: ls := rfl

theorem linesOf_append_newline :
    ∀ a b : List Char, linesOf (a ++ '\n' :: b) = linesOf a ++ linesOf b := by
  intro a b
  induction a with
  | nil => simp [linesOf]
  | cons c a ih =>
    rw [List.cons_append, linesOf_cons, linesOf_cons]
    by_cases hc : c = '\n'
    · rw [if_pos hc, if_pos hc, ih]
      simp
    · obtain ⟨l, ls, hl⟩ : ∃ l ls, linesOf a = l :: ls := by
        cases h : linesOf a with
        | nil => exact absurd h (linesOf_ne_nil a)
        | cons l ls => exact ⟨l, ls, rfl⟩
      rw [if_neg hc, if_neg hc, ih, hl]
      simp

theorem linesOf_single (s : List Char) (h : '\n' ∉ s) : linesOf s = [s] := by
  induction s with
  | nil => rfl
  | cons c cs ih =>
    have hc : c ≠ '\n' := by intro hc; exact h (hc ▸ List.mem_cons_self _ _)
    have hcs : '\n' ∉ cs := fun hm => h (List.mem_cons_of_mem _ hm)
    unfold linesOf
    rw [if_neg hc, ih hcs]

theorem fencesIn_single (p : List Char) (h1 : '\n' ∉ p) (h2 : fenceLine p = false) :
    fencesIn p = 0 := by
  unfold fencesIn
  rw [linesOf_single p h1]
  simp [h2]

theorem fencesIn_joinParts :
    ∀ ps : List (List Char), ps ≠ [] →
      fencesIn (joinParts ps) = (ps.map fencesIn).sum := by
  intro ps
  induction ps with
  | nil => intro h; exact absurd rfl h
  | cons p rest ih =>
    intro _
    cases rest with
    | nil => simp [joinParts]
    | cons q t =>
      have : joinParts (p :: q :: t) = p ++ '\n' :: joinParts (q :: t) := rfl
      rw [this]
      show (linesOf (p ++ '\n' :: joinParts (q :: t))).countP fenceLine = _
      rw [linesOf_append_newline, List.countP_append]
      have hrec := ih (by simp)
      simp only [List.map_cons, List.sum_cons]
      simp only [List.map_cons, List.sum_cons] at hrec
      unfold fencesIn at hrec ⊢
      omega

theorem even_sum_of_forall {α : Type} (f : α → ℕ) :
    ∀ l : List α, (∀ x ∈ l, Even (f x)) → Even ((l.map f).sum) := by
  intro l
  induction l with
  | nil => intro _; simp
  | cons x xs ih =>
    intro h
    simp only [List.map_cons, List.sum_cons]
    exact (h x (List.mem_cons_self _ _)).add
      (ih (fun y hy => h y (List.mem_cons_of_mem _ hy)))

/-- Fence-safety of one chunk: its rendered header line and its processed
content lines never begin a backtick fence, and its path is newline-free. -/
def fenceSafeChunk (c : RetrievedChunk) : Prop :=
  ('\n' ∉ chunkHeader c) ∧ fenceLine (chunkHeader c) = false ∧
  ('\n' ∉ c.file_path) ∧
  (∀ l ∈ linesOf (processedContent c), fenceLine l = false)

theorem notMem_ite_chars {c : Prop} [Decidable c] {a b : List Char} {x : Char}
    (ha : x ∉ a) (hb : x ∉ b) : x ∉ (if c then a else b) := by
  by_cases h : c
  · rw [if_pos h]; exact ha
  · rw [if_neg h]; exact hb

instance decidableFenceSafeChunk : DecidablePred fenceSafeChunk := fun c => by
  unfold fenceSafeChunk
  infer_instance

theorem lang_no_newline (fp : List Char) : '\n' ∉ languageForFile fp := by
  unfold languageForFile langFromLowered
  refine notMem_ite_chars (by decide) (notMem_ite_chars (by decide)
    (notMem_ite_chars (by decide) (notMem_ite_chars (by decide)
    (notMem_ite_chars (by decide) (notMem_ite_chars (by decide)
    (notMem_ite_chars (by decide) (notMem_ite_chars (by decide)
    (notMem_ite_chars (by decide) (notMem_ite_chars (by decide)
    (notMem_ite_chars (by decide) (notMem_ite_chars (by decide)
    (notMem_ite_chars (by decide) (by decide)))))))))))))

theorem fenceLine_backticks (x : List Char) : fenceLine ('`' :: '`' :: '`' :: x) = true := by
  simp [fenceLine, show ("```".data : List Char) = ['`', '`', '`'] from rfl, List.isPrefixOf]

theorem fencesIn_body (c : RetrievedChunk) (h : fenceSafeChunk c) :
    fencesIn (chunkBody c) = 2 := by
  obtain ⟨h1, h2, _, h4⟩ := h
  have hb : chunkBody c =
      chunkHeader c ++ '\n' ::
        (("```".data ++ languageForFile c.file_path) ++ '\n' ::
          (processedContent c ++ '\n' :: ("```".data ++ '\n' :: ([] : List Char)))) := by
    unfold chunkBody
    rw [show "\n```".data = '\n' :: "```".data from rfl,
        show "\n".data = ['\n'] from rfl,
        show "\n```\n".data = '\n' :: ("```".data ++ '\n' :: ([] : List Char)) from rfl]
    simp [List.append_assoc]
  unfold fencesIn
  rw [hb, linesOf_append_newline, linesOf_append_newline, linesOf_append_newline,
      linesOf_append_newline]
  have hhdr : linesOf (chunkHeader c) = [chunkHeader c] := linesOf_single _ h1
  have hlang : linesOf ("```".data ++ languageForFile c.file_path) =
      ["```".data ++ languageForFile c.file_path] := by
    apply linesOf_single
    intro hm
    rcases List.mem_append.mp hm with hm | hm
    · exact absurd hm (by decide)
    · exact absurd hm (lang_no_newline _)
  have hfence2 : linesOf ("```".data : List Char) = ["```".data] :=
    linesOf_single _ (by decide)
  rw [hhdr, hlang, hfence2]
  simp only [List.countP_append, List.countP_cons, List.countP_nil]
  have e1 : fenceLine (chunkHeader c) = false := h2
  have e2 : fenceLine ("```".data ++ languageForFile c.file_path) = true := by
    unfold fenceLine
    exact List.isPrefixOf_iff_prefix.mpr (List.prefix_append _ _)
  have e3 : (linesOf (processedContent c)).countP fenceLine = 0 :=
    List.countP_eq_zero.mpr (by intro l hl; simp [h4 l hl])
  have e4 : fenceLine ("```".data : List Char) = true := by
    unfold fenceLine
    exact List.isPrefixOf_iff_prefix.mpr (List.prefix_refl _)
  have e5 : fenceLine ([] : List Char) = false := by decide
  have e6 : linesOf ([] : List Char) = [[]] := rfl
  rw [e6]
  simp [e1, e2, e3, e4, e5, fenceLine_backticks]

theorem fenceLine_of_head_ne (c : Char) (x : List Char) (h : c ≠ '`') :
    fenceLine (c :: x) = false := by
  have hbe : ('`' == c) = false := by
    simp only [beq_eq_false_iff_ne]
    exact fun hh => h hh.symm
  simp [fenceLine, show ("```".data : List Char) = ['`', '`', '`'] from rfl,
    List.isPrefixOf, hbe]

theorem listingCost :
    ∀ groups : List (List Char × List RetrievedChunk),
      partsCost (groups.map (fun g => "- `".data ++ g.1 ++ "`".data)) =
        (groups.map (fun g => g.1.length + 5)).sum := by
  intro groups
  induction groups with
  | nil => rfl
  | cons g rest ih =>
    simp only [List.map_cons, partsCost_cons, ih, List.sum_cons, List.length_append,
      List.length_cons, List.length_nil]
    omega

theorem emitChunks_parts_mem (budget : ℕ) :
    ∀ (cs : List RetrievedChunk) (t : ℕ) (p : List Char),
      p ∈ (emitChunks budget cs t).1 →
      p = truncationNotice ∨ ∃ c ∈ cs, p = chunkBody c := by
  intro cs
  induction cs with
  | nil => intro t p hp; simp [emitChunks] at hp
  | cons c cs ih =>
    intro t p hp
    rw [emitChunks] at hp
    split at hp
    · simp at hp
      exact Or.inl hp
    · rcases List.mem_cons.mp hp with hp | hp
      · exact Or.inr ⟨c, List.mem_cons_self _ _, hp⟩
      · rcases ih _ _ hp with hp' | ⟨c', hc', hp'⟩
        · exact Or.inl hp'
        · exact Or.inr ⟨c', List.mem_cons_of_mem _ hc', hp'⟩

theorem emitFiles_parts_mem (budget : ℕ) :
    ∀ (groups : List (List Char × List RetrievedChunk)) (t : ℕ) (p : List Char),
      p ∈ emitFiles budget groups t →
      p = truncationNotice ∨ (∃ g ∈ groups, p = "### ".data ++ g.1) ∨
        (∃ g ∈ groups, ∃ c ∈ g.2, p = chunkBody c) := by
  intro groups
  induction groups with
  | nil => intro t p hp; simp [emitFiles] at hp
  | cons g rest ih =>
    intro t p hp
    obtain ⟨fp, cs⟩ := g
    rw [emitFiles] at hp
    split at hp
    · simp at hp
      exact Or.inl hp
    · rcases List.mem_append.mp hp with hp | hp
      · rcases List.mem_cons.mp hp with hp | hp
        · exact Or.inr (Or.inl ⟨(fp, cs), List.mem_cons_self _ _, hp⟩)
        · rcases emitChunks_parts_mem budget cs t p hp with hp' | ⟨c, hc, hp'⟩
          · exact Or.inl hp'
          · exact Or.inr (Or.inr ⟨(fp, cs), List.mem_cons_self _ _, c, hc, hp'⟩)
      · rcases ih _ _ hp with hp' | ⟨g', hg', hp'⟩ | ⟨g', hg', c, hc, hp'⟩
        · exact Or.inl hp'
        · exact Or.inr (Or.inl ⟨g', List.mem_cons_of_mem _ hg', hp'⟩)
        · exact Or.inr (Or.inr ⟨g', List.mem_cons_of_mem _ hg', c, hc, hp'⟩)

theorem insertGroup_good (chunks : List RetrievedChunk) :
    ∀ (acc : List (List Char × List RetrievedChunk)) (c : RetrievedChunk), c ∈ chunks →
      (∀ g ∈ acc, (∃ c0 ∈ chunks, g.1 = c0.file_path) ∧ ∀ c' ∈ g.2, c' ∈ chunks) →
      ∀ g ∈ insertGroup acc c,
        (∃ c0 ∈ chunks, g.1 = c0.file_path) ∧ ∀ c' ∈ g.2, c' ∈ chunks := by
  intro acc
  induction acc with
  | nil =>
    intro c hc _ g hg
    simp [insertGroup] at hg
    subst hg
    refine ⟨⟨c, hc, rfl⟩, ?_⟩
    intro c' hc'
    simp at hc'
    subst hc'
    exact hc
  | cons g0 rest ih =>
    intro c hc hacc g hg
    rw [insertGroup] at hg
    split at hg
    · rcases List.mem_cons.mp hg with hg | hg
      · subst hg
        obtain ⟨hkey, hmem⟩ := hacc g0 (List.mem_cons_self _ _)
        refine ⟨hkey, ?_⟩
        intro c' hc'
        rcases List.mem_append.mp hc' with hc' | hc'
        · exact hmem c' hc'
        · simp at hc'
          subst hc'
          exact hc
      · exact hacc g (List.mem_cons_of_mem _ hg)
    · rcases List.mem_cons.mp hg with hg | hg
      · exact hg ▸ hacc g0 (List.mem_cons_self _ _)
      · exact ih c hc (fun g' hg' => hacc g' (List.mem_cons_of_mem _ hg')) g hg

theorem groupByFile_good (chunks : List RetrievedChunk) :
    ∀ g ∈ groupByFile chunks,
      (∃ c0 ∈ chunks, g.1 = c0.file_path) ∧ ∀ c' ∈ g.2, c' ∈ chunks := by
  exact foldl_inv_mem
    (fun acc => ∀ g ∈ acc, (∃ c0 ∈ chunks, g.1 = c0.file_path) ∧ ∀ c' ∈ g.2, c' ∈ chunks)
    insertGroup chunks []
    (fun acc c hc hacc => insertGroup_good chunks acc c hc hacc)
    (by simp)

/-- C1 amended: the assembled context is at most `max_chars` plus a fixed
per-input overhead (header block, one listing line and one section header per
distinct file, the joining newlines, and at most two truncation notices) — the
bound `max_chars` plus only the truncation notice does not hold, as the
counterexample shows — and, provided every chunk is fence-safe (its rendered
header line and content lines never begin a backtick fence and its path is
newline-free), the returned string has an even number of fence lines: every
opening code fence is closed. -/
theorem build_context_amended (chunks : List RetrievedChunk) (b : ℕ) (hb : 0 < b) :
    (buildContext chunks (some b)).length ≤ b + contextOverhead chunks ∧
    ((∀ c ∈ chunks, fenceSafeChunk c) →
      Even (fencesIn (buildContext chunks (some b)))) := by
  obtain ⟨k, rfl⟩ : ∃ k, b = k + 1 := ⟨b - 1, by omega⟩
  by_cases hnil : chunks = []
  · subst hnil
    constructor
    · have hdef : buildContext [] (some (k + 1)) =
          "No relevant repository context found.".data := rfl
      rw [hdef]
      have hlen : ("No relevant repository context found.".data : List Char).length = 37 := by
        decide
      rw [hlen]
      unfold contextOverhead groupByFile
      simp
    · intro _
      have hdef : buildContext [] (some (k + 1)) =
          "No relevant repository context found.".data := rfl
      rw [hdef]
      decide
  · have hdef : buildContext chunks (some (k + 1)) =
        joinParts (("### Files Referenced".data ::
          ((groupByFile chunks).map (fun g => "- `".data ++ g.1 ++ "`".data) ++ [[]])) ++
          emitFiles (k + 1) (groupByFile chunks) 0) := by
      unfold buildContext
      rw [if_neg (by simpa [List.isEmpty_iff] using hnil)]
      rfl
    constructor
    · rw [hdef]
      refine le_trans (joinParts_length_le _) ?_
      rw [partsCost_append, partsCost_cons, partsCost_append, listingCost]
      have h1 : ("### Files Referenced".data : List Char).length = 20 := by decide
      have h3 : partsCost [([] : List Char)] = 1 := by decide
      have h4 := emitFiles_cost (k + 1) (groupByFile chunks) 0 (by omega)
      rw [sum_map_add_pair, groupByFile_sizes] at h4
      unfold contextOverhead
      omega
    · intro hsafe
      rw [hdef]
      rw [fencesIn_joinParts _ (by simp)]
      apply even_sum_of_forall
      intro p hp
      rcases List.mem_append.mp hp with hp | hp
      · rcases List.mem_cons.mp hp with hp | hp
        · subst hp; decide
        · rcases List.mem_append.mp hp with hp | hp
          · obtain ⟨g, hg, rfl⟩ := List.mem_map.mp hp
            obtain ⟨⟨c0, hc0, hkey⟩, _⟩ := groupByFile_good chunks g hg
            have hnn : '\n' ∉ c0.file_path := (hsafe c0 hc0).2.2.1
            have hz : fencesIn ("- `".data ++ g.1 ++ "`".data) = 0 := by
              apply fencesIn_single
              · intro hm
                rcases List.mem_append.mp hm with hm | hm
                · rcases List.mem_append.mp hm with hm | hm
                  · exact absurd hm (by decide)
                  · rw [hkey] at hm; exact hnn hm
                · exact absurd hm (by decide)
              · rw [show ("- `".data ++ g.1 ++ "`".data : List Char) =
                    '-' :: (" `".data ++ g.1 ++ "`".data) from by
                  simp [show ("- `".data : List Char) = '-' :: " `".data from rfl]]
                exact fenceLine_of_head_ne '-' _ (by decide)
            rw [hz]
            decide
          · simp at hp
            subst hp
            decide
      · rcases emitFiles_parts_mem (k + 1) (groupByFile chunks) 0 p hp with
          hp' | ⟨g, hg, rfl⟩ | ⟨g, hg, c, hc, rfl⟩
        · subst hp'; decide
        · obtain ⟨⟨c0, hc0, hkey⟩, _⟩ := groupByFile_good chunks g hg
          have hnn : '\n' ∉ c0.file_path := (hsafe c0 hc0).2.2.1
          have hz : fencesIn ("### ".data ++ g.1) = 0 := by
            apply fencesIn_single
            · intro hm
              rcases List.mem_append.mp hm with hm | hm
              · exact absurd hm (by decide)
              · rw [hkey] at hm; exact hnn hm
            · rw [show ("### ".data ++ g.1 : List Char) =
                  '#' :: ("## ".data ++ g.1) from by
                simp [show ("### ".data : List Char) = '#' :: "## ".data from rfl]]
              exact fenceLine_of_head_ne '#' _ (by decide)
          rw [hz]
          decide
        · have hcchunks : c ∈ chunks := (groupByFile_good chunks g hg).2 c hc
          rw [fencesIn_body c (hsafe c hcchunks)]
          decide

/-- A small, fence-safe chunk for concrete evaluation. -/
def ctxChunk : RetrievedChunk :=
  ⟨"w1".data, "print(1)\nprint(2)".data, "src/app.py".data, 1, 2,
   "function".data, "run".data, 0⟩

/-- C1 amended witness: the bound and the fence balance evaluated on a
concrete chunk, discharging the positivity and fence-safety hypotheses. -/
theorem build_context_amended_witness :
    0 < 500 ∧ (∀ c ∈ [ctxChunk], fenceSafeChunk c) ∧
    (buildContext [ctxChunk] (some 500)).length ≤ 500 + contextOverhead [ctxChunk] ∧
    Even (fencesIn (buildContext [ctxChunk] (some 500))) := by
  refine ⟨by decide, by decide, ?_, ?_⟩
  · exact (build_context_amended [ctxChunk] 500 (by decide)).1
  · exact (build_context_amended [ctxChunk] 500 (by decide)).2 (by decide)

/-! ## Reranker (`RAGPipeline._extract_json` and `_rerank_chunks`,
pipeline.py 520-604), with a JSON model covering the shapes the reranker
consumes (objects, arrays, strings with simple escapes, numbers, literals) -/

inductive JVal where
  | null
  | bool (b : Bool)
  | num
  | str (s : List Char)
  | arr (items : List JVal)
  | obj (fields : List (List Char × JVal))
deriving Repr

/-- JSON insignificant whitespace. -/
def skipWs (s : List Char) : List Char :=
  s.dropWhile (fun c => c = ' ' || c = '\t' || c = '\n' || c = '\r')

/-- Parse the remainder of a JSON string (after the opening quote), handling
the simple escapes. -/
def parseStrChars : List Char → Option (List Char × List Char)
  | [] => none
  | c :: t =>
    if c = '"' then some ([], t)
    else if c = '\\' then
      match t with
      | [] => none
      | e :: t' =>
        let esc : Option Char :=
          if e = '"' then some '"' else if e = '\\' then some '\\'
          else if e = '/' then some '/' else if e = 'b' then some '\x08'
          else if e = 'f' then some '\x0c' else if e = 'n' then some '\n'
          else if e = 'r' then some '\r' else if e = 't' then some '\t'
          else none
        match esc with
        | none => none
        | some ec =>
          match parseStrChars t' with
          | some (cs, rest) => some (ec :: cs, rest)
          | none => none
    else
      match parseStrChars t with
      | some (cs, rest) => some (c :: cs, rest)
      | none => none

/-- Consume a JSON number, returning the rest of the input. -/
def parseNumTail (s : List Char) : Option (List Char) :=
  let s1 := match s with
    | '-' :: t => t
    | _ => s
  match s1 with
  | c :: _ =>
    if c.isDigit then
      let s2 := s1.dropWhile Char.isDigit
      let s3 := match s2 with
        | '.' :: d :: t => if d.isDigit then (d :: t).dropWhile Char.isDigit else s2
        | _ => s2
      let s4 := match s3 with
        | e :: rest =>
          if e = 'e' ∨ e = 'E' then
            let rest' := match rest with
              | '+' :: t => t
              | '-' :: t => t
              | _ => rest
            match rest' with
            | d :: _ => if d.isDigit then rest'.dropWhile Char.isDigit else s3
            | [] => s3
          else s3
        | [] => s3
      some s4
    else none
  | [] => none

mutual
/-- Fuel-indexed JSON value parser (the model of `json.loads` success). -/
def parseVal : ℕ → List Char → Option (JVal × List Char)
  | 0, _ => none
  | Nat.succ fuel, s =>
    let s' := skipWs s
    match s' with
    | [] => none
    | c :: t =>
      if c = '"' then
        match parseStrChars t with
        | some (cs, rest) => some (.str cs, rest)
        | none => none
      else if c = '\x7b' then parseObjFields fuel t true
      else if c = '[' then parseArrItems fuel t true
      else if "true".data.isPrefixOf s' then some (.bool true, s'.drop 4)
      else if "false".data.isPrefixOf s' then some (.bool false, s'.drop 5)
      else if "null".data.isPrefixOf s' then some (.null, s'.drop 4)
      else
        match parseNumTail s' with
        | some rest => some (.num, rest)
        | none => none

def parseArrItems : ℕ → List Char → Bool → Option (JVal × List Char)
  | 0, _, _ => none
  | Nat.succ fuel, s, first =>
    let s' := skipWs s
    if first ∧ s'.head? = some ']' then some (.arr [], s'.tail)
    else
      match parseVal fuel s' with
      | none => none
      | some (v, rest) =>
        match skipWs rest with
        | ',' :: t =>
          match parseArrItems fuel t false with
          | some (.arr vs, r) => some (.arr (v :: vs), r)
          | _ => none
        | ']' :: t => some (.arr [v], t)
        | _ => none

def parseObjFields : ℕ → List Char → Bool → Option (JVal × List Char)
  | 0, _, _ => none
  | Nat.succ fuel, s, first =>
    let s' := skipWs s
    if first ∧ s'.head? = some '\x7d' then some (.obj [], s'.tail)
    else
      match s' with
      | '"' :: t =>
        match parseStrChars t with
        | none => none
        | some (key, rest) =>
          match skipWs rest with
          | ':' :: t2 =>
            match parseVal fuel t2 with
            | none => none
            | some (v, rest2) =>
              match skipWs rest2 with
              | ',' :: t3 =>
                match parseObjFields fuel t3 false with
                | some (.obj fs, r) => some (.obj ((key, v) :: fs), r)
                | _ => none
              | '\x7d' :: t3 => some (.obj [(key, v)], t3)
              | _ => none
          | _ => none
      | _ => none
end

/-- `json.loads(s)`: one JSON value followed only by whitespace. -/
def jsonLoads (s : List Char) : Option JVal :=
  match parseVal (s.length + 1) s with
  | some (v, rest) => if skipWs rest = [] then some v else none
  | none => none

/-- `re.sub(r"^'''[a-zA-Z]*\n", "", cleaned)` — drop a leading backtick fence
line when the regex matches, else leave unchanged. -/
def dropFenceHeader (s : List Char) : List Char :=
  let afterTicks := s.drop 3
  let afterLetters := afterTicks.dropWhile Char.isAlpha
  match afterLetters with
  | '\n' :: rest => rest
  | _ => s

/-- `cleaned.rstrip("'")` on backticks. -/
def rstripBackticks (s : List Char) : List Char :=
  (s.reverse.dropWhile (fun c => c = '`')).reverse

/-- `re.search(r"\x7b.*\x7d", cleaned, re.DOTALL)`: greedy span from the first
opening brace to the last closing brace. -/
def braceSpan (s : List Char) : Option (List Char) :=
  let pre := s.dropWhile (fun c => c ≠ '\x7b')
  match pre with
  | [] => none
  | _ =>
    let trimmed := (pre.reverse.dropWhile (fun c => c ≠ '\x7d')).reverse
    if trimmed.isEmpty then none else some trimmed

/-- `RAGPipeline._extract_json`: strict parse of the cleaned text first, then
the embedded-object fallback; only dict payloads are returned. -/
def extractJson (text : List Char) : Option (List (List Char × JVal)) :=
  let cleaned := pyStrip text
  let cleaned :=
    if startsWith "```".data cleaned then pyStrip (rstripBackticks (dropFenceHeader cleaned))
    else cleaned
  match jsonLoads cleaned with
  | some (.obj fields) => some fields
  | _ =>
    match braceSpan cleaned with
    | none => none
    | some sub =>
      match jsonLoads sub with
      | some (.obj fields) => some fields
      | _ => none

/-- Characters of the UUID fallback regex `[0-9a-fA-F-]{32,36}`. -/
def uuidChar (c : Char) : Bool :=
  c.isDigit || ('a' ≤ c ∧ c ≤ 'f') || ('A' ≤ c ∧ c ≤ 'F') || c = '-'

/-- Greedy non-overlapping `{32,36}` matches inside one maximal run
(fuel-indexed so that it evaluates by kernel reduction). -/
def uuidSegsFuel : ℕ → List Char → List (List Char)
  | 0, _ => []
  | Nat.succ fuel, run =>
    if run.length < 32 then []
    else run.take 36 :: uuidSegsFuel fuel (run.drop 36)

def uuidSegs (run : List Char) : List (List Char) := uuidSegsFuel run.length run

/-- `re.findall(r"[0-9a-fA-F-]{32,36}", response)`. -/
def findUuidTokens (s : List Char) : List (List Char) :=
  (charRuns uuidChar s).flatMap uuidSegs

/-- The `ranked_ids` extraction of `_rerank_chunks`: strict/embedded JSON
first (keeping only known ids, deduplicated, order-preserving), then the
identifier-token scan fallback. -/
def rankedIdsFromResponse (validIds : List (List Char)) (response : List Char) :
    List (List Char) :=
  let payloadFields := (extractJson response).getD []
  let rawIds : Option JVal :=
    (payloadFields.reverse.find? (fun f => f.1 = "ranked_ids".data)).map (fun f => f.2)
  let ranked1 : List (List Char) :=
    match rawIds with
    | some (.arr items) =>
        items.foldl
          (fun acc item =>
            match item with
            | .str sid =>
                if validIds.contains sid ∧ ¬ acc.contains sid then acc ++ [sid] else acc
            | _ => acc)
          []
    | _ => []
  if ranked1.isEmpty then
    (findUuidTokens response).foldl
      (fun acc tok =>
        if validIds.contains tok ∧ ¬ acc.contains tok then acc ++ [tok] else acc)
      []
  else ranked1

/-- `RAGPipeline._rerank_chunks`, with the generation collaborator's outcome
passed in: `Except.error` models any exception during the call (caught and
swallowed), `Except.ok response` its text. -/
def rerankChunks (chunks : List RetrievedChunk) (resp : Except Unit (List Char)) :
    List RetrievedChunk :=
  match resp with
  | .error _ => chunks
  | .ok response =>
    let validIds := chunks.map (fun c => c.id)
    let rankedIds := rankedIdsFromResponse validIds response
    if rankedIds.isEmpty then chunks
    else
      let reordered := rankedIds.filterMap (fun cid => chunks.reverse.find? (fun c => c.id = cid))
      let seen := reordered.map (fun c => c.id)
      reordered ++ chunks.filter (fun c => ¬ seen.contains c.id)

def rrA : RetrievedChunk :=
  ⟨List.replicate 32 'a', "A".data, "a.py".data, 1, 2, "function".data, [], 1⟩

def rrB : RetrievedChunk :=
  ⟨List.replicate 32 'b', "B".data, "b.py".data, 3, 4, "function".data, [], 0⟩

set_option maxRecDepth 4000 in
/-- C2 counterexample: a malformed-JSON response (32 hex characters, not
parseable JSON) that mentions the second chunk's id makes the reranker move
that chunk to the front via the identifier-token fallback — the input order is
not preserved. -/
theorem rerank_malformed_counterexample :
    (jsonLoads (List.replicate 32 'b')).isNone = true ∧
    rerankChunks [rrA, rrB] (.ok (List.replicate 32 'b')) = [rrB, rrA] ∧
    rerankChunks [rrA, rrB] (.ok (List.replicate 32 'b')) ≠ [rrA, rrB] := by
  refine ⟨by decide, by decide, by decide⟩

/-- C2 amended: any exception during reranking returns the original order
unchanged, and a response from which id extraction (strict JSON, embedded
JSON, and the identifier-token fallback) yields no known candidate id — in
particular malformed JSON mentioning no candidate id — returns the original
order unchanged; a malformed response that does mention candidate ids can
reorder, as the counterexample shows. -/
theorem rerank_fallback_amended (chunks : List RetrievedChunk) :
    rerankChunks chunks (.error ()) = chunks ∧
    ∀ response : List Char,
      rankedIdsFromResponse (chunks.map (fun c => c.id)) response = [] →
      rerankChunks chunks (.ok response) = chunks := by
  constructor
  · rfl
  · intro response h
    simp [rerankChunks, h]

/-- C2 amended witness: a malformed response with no id-shaped token leaves a
concrete chunk list unchanged, as does an exception. -/
theorem rerank_fallback_amended_witness :
    rankedIdsFromResponse ([rrA].map (fun c => c.id)) "oops".data = [] ∧
    rerankChunks [rrA] (.ok "oops".data) = [rrA] ∧
    rerankChunks [rrA] (.error ()) = [rrA] := by
  refine ⟨by decide, ?_, ?_⟩
  · exact (rerank_fallback_amended [rrA]).2 "oops".data (by decide)
  · exact (rerank_fallback_amended [rrA]).1

/-! ## Cache layer (`ChatCache`, chat_cache.py). Keys are modelled by the
semantic fields hashed by `_hash_payload` (the canonical-JSON sha256 is
injective on them by design); each namespace is a bounded in-process TTL tier
plus an optional distributed tier sharing the same clock. -/

inductive CacheKey where
  | embedding (query model : List Char)
  | retrieval (repo normalizedQuery intent profile : List Char)
      (contextFiles : List (List Char))
  | answer (repo question intent : List Char) (topChunkIds : List (List Char))
      (model : List Char)
deriving DecidableEq, Repr

/-- Lexicographic string order of Python `sorted`. -/
def leStr : List Char → List Char → Bool
  | [], _ => true
  | _ :: _, [] => false
  | a :: as, b :: bs => if a < b then true else if b < a then false else leStr as bs

/-- `ChatCache._key_embedding` (the query is stripped). -/
def keyEmbedding (query model : List Char) : CacheKey :=
  .embedding (pyStrip query) model

/-- `ChatCache._key_retrieval` (context files sorted). -/
def keyRetrieval (repo normalizedQuery intent profile : List Char)
    (contextFiles : Option (List (List Char))) : CacheKey :=
  .retrieval repo normalizedQuery intent profile
    ((contextFiles.getD []).mergeSort leStr)

/-- `ChatCache._key_answer` (question stripped, first 12 chunk ids). -/
def keyAnswer (repo question intent : List Char) (topChunkIds : List (List Char))
    (model : List Char) : CacheKey :=
  .answer repo (pyStrip question) intent (topChunkIds.take 12) model

/-- One expiring tier: (key, value, expiry) entries, newest first. -/
structure TierStore (V : Type) where
  entries : List (CacheKey × V × ℕ)
deriving DecidableEq, Repr

/-- Lookup at time `now`: a stored entry answers only before its expiry
(`TTLCache` / Redis `EX` semantics). -/
def tierGet {V : Type} (st : TierStore V) (k : CacheKey) (now : ℕ) : Option V :=
  match st.entries.find? (fun e => e.1 = k) with
  | some (_, v, exp) => if now < exp then some v else none
  | none => none

/-- Store at time `now` with expiry `now + ttl`, replacing the key. -/
def tierSet {V : Type} (st : TierStore V) (k : CacheKey) (v : V) (now ttl : ℕ) :
    TierStore V :=
  ⟨(k, v, now + ttl) :: st.entries.filter (fun e => e.1 ≠ k)⟩

/-- One cache namespace: in-process tier, optional distributed tier
(`None` when Redis is disabled or unconfigured), and the namespace TTL
(`max(1, configured)`). -/
structure Tier2Cache (V : Type) where
  localTier : TierStore V
  redisTier : Option (TierStore V)
  ttl : ℕ
deriving DecidableEq, Repr

/-- Namespace `get`: distributed tier first, then the in-process tier. -/
def cacheGet {V : Type} (c : Tier2Cache V) (k : CacheKey) (now : ℕ) : Option V :=
  let fromRedis := match c.redisTier with
    | some r => tierGet r k now
    | none => none
  match fromRedis with
  | some v => some v
  | none => tierGet c.localTier k now

/-- Namespace `set`: the in-process tier is written unconditionally, the
distributed tier when configured. -/
def cacheSet {V : Type} (c : Tier2Cache V) (k : CacheKey) (v : V) (now : ℕ) :
    Tier2Cache V :=
  { c with
    localTier := tierSet c.localTier k v now c.ttl
    redisTier := c.redisTier.map (fun r => tierSet r k v now c.ttl) }

/-- `ChatCache`: the three namespaces. -/
structure ChatCacheState where
  embedCache : Tier2Cache (List ℚ)
  retrievalCache : Tier2Cache (List (List Char))
  answerCache : Tier2Cache (List Char)
deriving DecidableEq

/-- `ChatCache.__init__`: empty tiers with `ttl=max(1, settings...)` per
namespace. -/
def mkChatCache (embedTtl retrievalTtl answerTtl : ℕ) (hasRedis : Bool) :
    ChatCacheState :=
  ⟨⟨⟨[]⟩, if hasRedis then some ⟨[]⟩ else none, max 1 embedTtl⟩,
   ⟨⟨[]⟩, if hasRedis then some ⟨[]⟩ else none, max 1 retrievalTtl⟩,
   ⟨⟨[]⟩, if hasRedis then some ⟨[]⟩ else none, max 1 answerTtl⟩⟩

def getEmbedding (st : ChatCacheState) (query model : List Char) (now : ℕ) :
    Option (List ℚ) :=
  cacheGet st.embedCache (keyEmbedding query model) now

def setEmbedding (st : ChatCacheState) (query model : List Char) (emb : List ℚ)
    (now : ℕ) : ChatCacheState :=
  { st with embedCache := cacheSet st.embedCache (keyEmbedding query model) emb now }

def getRetrieval (st : ChatCacheState) (repo nq intent profile : List Char)
    (contextFiles : Option (List (List Char))) (now : ℕ) :
    Option (List (List Char)) :=
  cacheGet st.retrievalCache (keyRetrieval repo nq intent profile contextFiles) now

def setRetrieval (st : ChatCacheState) (repo nq intent profile : List Char)
    (contextFiles : Option (List (List Char))) (candidates : List (List Char))
    (now : ℕ) : ChatCacheState :=
  { st with retrievalCache :=
      (cacheSet st.retrievalCache (keyRetrieval repo nq intent profile contextFiles)
        candidates now) }

def getAnswer (st : ChatCacheState) (repo question intent : List Char)
    (topChunkIds : List (List Char)) (model : List Char) (now : ℕ) :
    Option (List Char) :=
  cacheGet st.answerCache (keyAnswer repo question intent topChunkIds model) now

def setAnswer (st : ChatCacheState) (repo question intent : List Char)
    (topChunkIds : List (List Char)) (model : List Char) (answer : List Char)
    (now : ℕ) : ChatCacheState :=
  { st with answerCache :=
      (cacheSet st.answerCache (keyAnswer repo question intent topChunkIds model)
        answer now) }

theorem cacheGet_cacheSet {V : Type} (c : Tier2Cache V) (k : CacheKey) (v : V)
    (now t' : ℕ) :
    (cacheSet c k v now).localTier.entries.head? = some (k, v, now + c.ttl) ∧
    (t' < now + c.ttl → cacheGet (cacheSet c k v now) k t' = some v) ∧
    (now + c.ttl ≤ t' → cacheGet (cacheSet c k v now) k t' = none) := by
  refine ⟨rfl, ?_, ?_⟩
  · intro h
    cases hr : c.redisTier with
    | none => simp [cacheGet, cacheSet, tierGet, tierSet, hr, List.find?, h]
    | some r => simp [cacheGet, cacheSet, tierGet, tierSet, hr, List.find?, h]
  · intro h
    have hnot : ¬ t' < now + c.ttl := by omega
    cases hr : c.redisTier with
    | none => simp [cacheGet, cacheSet, tierGet, tierSet, hr, List.find?, hnot]
    | some r => simp [cacheGet, cacheSet, tierGet, tierSet, hr, List.find?, hnot]

/-- C7: in every namespace, `set` writes the in-process tier unconditionally
and an immediate `get` (any time before the namespace TTL elapses) returns
the value just written; once the TTL has elapsed, `get` misses. -/
theorem chat_cache_set_get_ttl (st : ChatCacheState) (now t' : ℕ) :
    (∀ (q m : List Char) (v : List ℚ),
      ((setEmbedding st q m v now).embedCache.localTier.entries.head? =
        some (keyEmbedding q m, v, now + st.embedCache.ttl)) ∧
      (t' < now + st.embedCache.ttl →
        getEmbedding (setEmbedding st q m v now) q m t' = some v) ∧
      (now + st.embedCache.ttl ≤ t' →
        getEmbedding (setEmbedding st q m v now) q m t' = none)) ∧
    (∀ (repo nq intent profile : List Char) (cf : Option (List (List Char)))
        (v : List (List Char)),
      ((setRetrieval st repo nq intent profile cf v now).retrievalCache.localTier.entries.head? =
        some (keyRetrieval repo nq intent profile cf, v, now + st.retrievalCache.ttl)) ∧
      (t' < now + st.retrievalCache.ttl →
        getRetrieval (setRetrieval st repo nq intent profile cf v now)
          repo nq intent profile cf t' = some v) ∧
      (now + st.retrievalCache.ttl ≤ t' →
        getRetrieval (setRetrieval st repo nq intent profile cf v now)
          repo nq intent profile cf t' = none)) ∧
    (∀ (repo question intent mdl : List Char) (ids : List (List Char)) (v : List Char),
      ((setAnswer st repo question intent ids mdl v now).answerCache.localTier.entries.head? =
        some (keyAnswer repo question intent ids mdl, v, now + st.answerCache.ttl)) ∧
      (t' < now + st.answerCache.ttl →
        getAnswer (setAnswer st repo question intent ids mdl v now)
          repo question intent ids mdl t' = some v) ∧
      (now + st.answerCache.ttl ≤ t' →
        getAnswer (setAnswer st repo question intent ids mdl v now)
          repo question intent ids mdl t' = none)) := by
  refine ⟨?_, ?_, ?_⟩
  · intro q m v
    exact cacheGet_cacheSet st.embedCache (keyEmbedding q m) v now t'
  · intro repo nq intent profile cf v
    exact cacheGet_cacheSet st.retrievalCache (keyRetrieval repo nq intent profile cf) v now t'
  · intro repo question intent mdl ids v
    exact cacheGet_cacheSet st.answerCache (keyAnswer repo question intent ids mdl) v now t'

/-- C7 witness: a freshly constructed cache (TTLs 3600/600/1800, no Redis),
written at time 0 and read back at time 0 (hit) and at the TTL (miss), in
each namespace. -/
theorem chat_cache_set_get_ttl_witness :
    (getEmbedding (setEmbedding (mkChatCache 3600 600 1800 false) "q".data "m".data [1] 0)
      "q".data "m".data 0 = some [1] ∧
     getEmbedding (setEmbedding (mkChatCache 3600 600 1800 false) "q".data "m".data [1] 0)
      "q".data "m".data 3600 = none) ∧
    (getRetrieval (setRetrieval (mkChatCache 3600 600 1800 false) "r".data "nq".data
        "overview".data "docs_first".data none ["c1".data] 0)
      "r".data "nq".data "overview".data "docs_first".data none 0 = some ["c1".data] ∧
     getRetrieval (setRetrieval (mkChatCache 3600 600 1800 false) "r".data "nq".data
        "overview".data "docs_first".data none ["c1".data] 0)
      "r".data "nq".data "overview".data "docs_first".data none 600 = none) ∧
    (getAnswer (setAnswer (mkChatCache 3600 600 1800 false) "r".data "q".data
        "overview".data [] "m".data "ans".data 0)
      "r".data "q".data "overview".data [] "m".data 0 = some "ans".data ∧
     getAnswer (setAnswer (mkChatCache 3600 600 1800 false) "r".data "q".data
        "overview".data [] "m".data "ans".data 0)
      "r".data "q".data "overview".data [] "m".data 1800 = none) := by
  refine ⟨⟨?_, ?_⟩, ⟨?_, ?_⟩, ⟨?_, ?_⟩⟩
  · exact ((chat_cache_set_get_ttl (mkChatCache 3600 600 1800 false) 0 0).1
      "q".data "m".data [1]).2.1 (by decide)
  · exact ((chat_cache_set_get_ttl (mkChatCache 3600 600 1800 false) 0 3600).1
      "q".data "m".data [1]).2.2 (by decide)
  · exact ((chat_cache_set_get_ttl (mkChatCache 3600 600 1800 false) 0 0).2.1
      "r".data "nq".data "overview".data "docs_first".data none ["c1".data]).2.1 (by decide)
  · exact ((chat_cache_set_get_ttl (mkChatCache 3600 600 1800 false) 0 600).2.1
      "r".data "nq".data "overview".data "docs_first".data none ["c1".data]).2.2 (by decide)
  · exact ((chat_cache_set_get_ttl (mkChatCache 3600 600 1800 false) 0 0).2.2
      "r".data "q".data "overview".data "m".data [] "ans".data).2.1 (by decide)
  · exact ((chat_cache_set_get_ttl (mkChatCache 3600 600 1800 false) 0 1800).2.2
      "r".data "q".data "overview".data "m".data [] "ans".data).2.2 (by decide)

/-! ## Generation orchestrator streaming (`RAGPipeline.generate_stream`,
pipeline.py 756-777) -/

/-- Outcome of the model's token stream: completes with the fragments in
order, or raises after emitting a prefix of fragments. -/
inductive StreamOutcome where
  | ok (frags : List (List Char))
  | err (emitted : List (List Char))

/-- Replay of a cached answer in 320-character slices (fuel-indexed). -/
def slicesFuel : ℕ → List Char → List (List Char)
  | 0, _ => []
  | Nat.succ fuel, s =>
    if s.isEmpty then [] else s.take 320 :: slicesFuel fuel (s.drop 320)

def slices320 (s : List Char) : List (List Char) := slicesFuel s.length s

/-- `generate_stream` over the answer-cache namespace: on a cache hit the
cached text is replayed in slices and the cache is untouched; on a miss the
stream's fragments are yielded as they arrive, and only a successful stream
with at least one fragment writes their concatenation to the cache
(`if pieces:`); an exception part-way leaves the cache unchanged. Returns the
emitted fragments and the resulting cache state. -/
def generateStream (cache : Tier2Cache (List Char)) (key : CacheKey) (now : ℕ)
    (outcome : StreamOutcome) : List (List Char) × Tier2Cache (List Char) :=
  match cacheGet cache key now with
  | some cached => (slices320 cached, cache)
  | none =>
    match outcome with
    | .ok frags =>
        (frags, if frags.isEmpty then cache else cacheSet cache key frags.flatten now)
    | .err emitted => (emitted, cache)

def emptyAnswerCache : Tier2Cache (List Char) := ⟨⟨[]⟩, none, 1800⟩

def c8key : CacheKey := keyAnswer "repo".data "q".data "implementation".data [] "m".data

/-- C8 counterexample: a stream that completes successfully having emitted
zero fragments does not populate the answer cache with the (empty)
concatenation — the cache is left unchanged and a subsequent lookup still
misses, contrary to the claim's unqualified "populates". -/
theorem generate_stream_empty_counterexample :
    cacheGet emptyAnswerCache c8key 0 = none ∧
    (generateStream emptyAnswerCache c8key 0 (.ok [])).1 = [] ∧
    (generateStream emptyAnswerCache c8key 0 (.ok [])).2 = emptyAnswerCache ∧
    cacheGet (generateStream emptyAnswerCache c8key 0 (.ok [])).2 c8key 0 ≠
      some (([] : List (List Char)).flatten) := by
  refine ⟨by decide, by decide, by decide, by decide⟩

/-- C8 amended: on a cache miss, a stream that completes successfully having
emitted at least one fragment populates the answer cache with exactly the
concatenation of the fragments it emitted; a successful stream with no
fragments leaves the cache unchanged; a stream that raises part-way leaves
the cache unchanged (no partial answer is ever cached). -/
theorem generate_stream_cache_amended (cache : Tier2Cache (List Char))
    (key : CacheKey) (now : ℕ) (hmiss : cacheGet cache key now = none)
    (httl : 0 < cache.ttl) :
    (∀ frags : List (List Char), frags ≠ [] →
      (generateStream cache key now (.ok frags)).1 = frags ∧
      (generateStream cache key now (.ok frags)).2 = cacheSet cache key frags.flatten now ∧
      cacheGet (generateStream cache key now (.ok frags)).2 key now = some frags.flatten) ∧
    (generateStream cache key now (.ok [])).2 = cache ∧
    (∀ emitted : List (List Char),
      (generateStream cache key now (.err emitted)).1 = emitted ∧
      (generateStream cache key now (.err emitted)).2 = cache) := by
  refine ⟨?_, ?_, ?_⟩
  · intro frags hne
    have hdef : generateStream cache key now (.ok frags) =
        (frags, cacheSet cache key frags.flatten now) := by
      unfold generateStream
      rw [hmiss]
      simp [List.isEmpty_iff, hne]
    refine ⟨by rw [hdef], by rw [hdef], ?_⟩
    rw [hdef]
    exact (cacheGet_cacheSet cache key frags.flatten now now).2.1 (by omega)
  · unfold generateStream
    rw [hmiss]
    simp
  · intro emitted
    unfold generateStream
    rw [hmiss]
    exact ⟨rfl, rfl⟩

/-- C8 amended witness: a concrete miss, a two-fragment successful stream
populating the cache with the concatenation, and an erroring stream leaving
it unchanged. -/
theorem generate_stream_cache_amended_witness :
    cacheGet emptyAnswerCache c8key 0 = none ∧ 0 < emptyAnswerCache.ttl ∧
    (["hel".data, "lo".data] : List (List Char)) ≠ [] ∧
    cacheGet (generateStream emptyAnswerCache c8key 0
        (.ok ["hel".data, "lo".data])).2 c8key 0 =
      some (["hel".data, "lo".data] : List (List Char)).flatten ∧
    (generateStream emptyAnswerCache c8key 0 (.err ["par".data])).2 =
      emptyAnswerCache := by
  refine ⟨by decide, by decide, by decide, ?_, ?_⟩
  · exact ((generate_stream_cache_amended emptyAnswerCache c8key 0 (by decide)
      (by decide)).1 ["hel".data, "lo".data] (by decide)).2.2
  · exact ((generate_stream_cache_amended emptyAnswerCache c8key 0 (by decide)
      (by decide)).2.2 ["par".data]).2

/-! ## Admission control (`send_message.generate_stream`, chat.py 188-301),
modelled as outcome-indexed traces of the async generator's control flow:
the inner `try/except TimeoutError` around the semaphore wait, the outer
`except` handlers, and the `finally` release. -/

inductive ChatEvent where
  | sources
  | meta
  | content (tok : List Char)
  | done
  | errorEvent (code : List Char)
deriving DecidableEq, Repr

/-- How one request's pipeline ends: the semaphore wait times out before a
permit is held; the pipeline succeeds emitting `toks`; the request deadline
(`asyncio.timeout`) fires after the events `pre` were emitted; or generation
raises after `pre`. -/
inductive ChatOutcome where
  | acquireTimeout
  | success (toks : List (List Char))
  | requestTimeout (pre : List ChatEvent)
  | generationError (pre : List ChatEvent)

/-- Trace of one execution of the generator: the SSE events emitted, and how
often the per-repository permit was acquired and released. -/
structure RunTrace where
  events : List ChatEvent
  acquires : ℕ
  releases : ℕ
deriving DecidableEq, Repr

/-- Events of the `try` body and whether `acquired` was set: on
`acquireTimeout` the inner handler yields the structured busy error and
returns with `acquired` still `False` (chat.py 203-210); otherwise the permit
is acquired, and the body runs to `done` or is cut short by an outer handler
that yields the corresponding structured error event (chat.py 288-298). -/
def tryBodyEvents (emitMeta : Bool) : ChatOutcome → List ChatEvent × Bool
  | .acquireTimeout => ([.errorEvent "CHAT_REPO_CONCURRENCY_LIMIT".data], false)
  | .success toks =>
      (.sources :: (if emitMeta then [ChatEvent.meta] else []) ++
        toks.map ChatEvent.content ++ [.done], true)
  | .requestTimeout pre => (pre ++ [.errorEvent "CHAT_REQUEST_TIMEOUT".data], true)
  | .generationError pre => (pre ++ [.errorEvent "CHAT_GENERATION_ERROR".data], true)

/-- One full run of the generator: the `finally` block releases the permit
exactly when it was acquired (chat.py 299-301). -/
def runSendMessage (emitMeta : Bool) (o : ChatOutcome) : RunTrace :=
  let body := tryBodyEvents emitMeta o
  ⟨body.1, if body.2 then 1 else 0, if body.2 then 1 else 0⟩

/-- C9: a timed-out permit wait yields a structured busy event with the
machine-readable code `CHAT_REPO_CONCURRENCY_LIMIT` (never a silent drop)
and holds no permit; and on every exit path (success, generation error,
request timeout, busy) the permit is released exactly as often as it was
acquired, at most once. -/
theorem admission_control_contract :
    (∀ emitMeta : Bool,
      (runSendMessage emitMeta .acquireTimeout).events =
        [.errorEvent "CHAT_REPO_CONCURRENCY_LIMIT".data] ∧
      (runSendMessage emitMeta .acquireTimeout).events ≠ [] ∧
      (runSendMessage emitMeta .acquireTimeout).acquires = 0 ∧
      (runSendMessage emitMeta .acquireTimeout).releases = 0) ∧
    (∀ (emitMeta : Bool) (o : ChatOutcome),
      (runSendMessage emitMeta o).releases = (runSendMessage emitMeta o).acquires ∧
      (runSendMessage emitMeta o).acquires ≤ 1) := by
  constructor
  · intro m
    exact ⟨rfl, by simp [runSendMessage, tryBodyEvents], rfl, rfl⟩
  · intro m o
    cases o <;> simp [runSendMessage, tryBodyEvents]

end CodebaseQA
